import Mathlib

/-!
MinAggregation (olivere/elastic v6, `search_aggs_metrics_min.go`)

A shallow embedding of the `MinAggregation` request builder and of its
`Source` method, together with theorems about the rendered document.

Modelling conventions.

* A Go `interface{}` value is a `Value`: a JSON-like tree, `Value.null` being
  the nil interface.
* A Go `map[string]T` is a `GoMap T`: either the nil map or a finite map.  A
  finite map `StrMap T` is kept as an association list with strictly
  increasing keys, so that equality of `StrMap`s is equality of maps (same
  keys, same values).
* Go does not fix the order in which `range` visits the entries of a map.
  `Source` therefore takes a `Schedule`, the sequence of choices made by the
  runtime, and visits the entries in the order `rangeOrder` derives from it.
* `(interface{}, error)` is the pair `Value × Option GoError`; the component
  `none` is the nil error.
* A runtime panic (assignment to an entry of a nil map) is `none`.
* A collaborator (`Script`, `Aggregation`) is its render outcome.  Where two
  calls are compared, `CallAggregation` lets the outcome of a sub-aggregation
  depend on the call, as it does for a nested `MinAggregation`.
* For the claim on what `Source` writes, `SourceMem` is `Source` over an
  explicit heap in which the builder and the maps are objects shared by
  reference; `SourceMem_refines` relates it to `MinAggregation.Source`.
-/

namespace Elastic

/-! ## Values -/

/-- A Go `interface{}` value, as a tree of interchange values. -/
inductive Value where
  | null : Value
  | bool (b : Bool) : Value
  | num (n : Int) : Value
  | str (s : String) : Value
  | arr (xs : List Value) : Value
  | obj (entries : List (String × Value)) : Value

/-- A Go `error` value (non-nil). -/
structure GoError where
  msg : String
deriving DecidableEq

/-- The pair `(interface{}, error)` returned by every `Source` method. -/
abbrev SourceResult := Value × Option GoError

/-! ## Finite maps with string keys -/

/-- The code points of a key; keys are ordered by comparing these
lexicographically. -/
def keyCode (s : String) : List Nat := s.data.map Char.toNat

theorem char_toNat_injective : Function.Injective Char.toNat := by
  intro a b h
  have hv : a.val = b.val := by
    apply UInt32.ext
    exact h
  exact Char.ext hv

theorem keyCode_injective : Function.Injective keyCode := by
  intro a b h
  unfold keyCode at h
  exact String.ext (List.map_injective_iff.2 char_toNat_injective h)

/-- Keys of an association list are strictly increasing. -/
def KeysSorted {α : Type} (l : List (String × α)) : Prop :=
  l.Pairwise (fun x y => keyCode x.1 < keyCode y.1)

/-- Store `v` at key `k` in a key-sorted association list, replacing the
entry at `k` when there is one. -/
def insertEntry {α : Type} (k : String) (v : α) :
    List (String × α) → List (String × α)
  | [] => [(k, v)]
  | (k', v') :: rest =>
    if keyCode k < keyCode k' then (k, v) :: (k', v') :: rest
    else if k = k' then (k, v) :: rest
    else (k', v') :: insertEntry k v rest

/-- A finite map from strings to `α`. -/
structure StrMap (α : Type) where
  entries : List (String × α)
  sorted : KeysSorted entries

theorem keyCode_lt_ne {a b : String} (h : keyCode a < keyCode b) : a ≠ b := by
  intro e
  subst e
  exact lt_irrefl _ h

theorem keyCode_lt_of_not {a b : String} (h1 : ¬ keyCode a < keyCode b) (h2 : a ≠ b) :
    keyCode b < keyCode a :=
  lt_of_le_of_ne (not_lt.1 h1) (fun e => h2 (keyCode_injective e).symm)

/-- The entries of `insertEntry k v l` are `(k, v)` and the entries of `l`
at other keys. -/
theorem mem_insertEntry {α : Type} (k : String) (v : α) (l : List (String × α))
    (hl : KeysSorted l) (p : String × α) :
    p ∈ insertEntry k v l ↔ p = (k, v) ∨ (p ∈ l ∧ p.1 ≠ k) := by
  induction l with
  | nil => simp [insertEntry]
  | cons hd tl ih =>
    obtain ⟨k', v'⟩ := hd
    have hs := List.pairwise_cons.1 hl
    have ih' := ih hs.2
    simp only [insertEntry]
    split_ifs with h1 h2
    · simp only [List.mem_cons]
      constructor
      · rintro (h | h | h)
        · exact Or.inl h
        · right
          refine ⟨Or.inl h, ?_⟩
          rw [h]
          exact (keyCode_lt_ne h1).symm
        · right
          refine ⟨Or.inr h, ?_⟩
          exact (keyCode_lt_ne (lt_trans h1 (hs.1 p h))).symm
      · rintro (h | ⟨h, _⟩)
        · exact Or.inl h
        · exact Or.inr h
    · subst h2
      simp only [List.mem_cons]
      constructor
      · rintro (h | h)
        · exact Or.inl h
        · right
          exact ⟨Or.inr h, (keyCode_lt_ne (hs.1 p h)).symm⟩
      · rintro (h | ⟨h | h, hne⟩)
        · exact Or.inl h
        · exact absurd (by rw [h]) hne
        · exact Or.inr h
    · simp only [List.mem_cons, ih']
      constructor
      · rintro (h | h | ⟨h, hne⟩)
        · right
          refine ⟨Or.inl h, ?_⟩
          rw [h]
          exact fun e => h2 e.symm
        · exact Or.inl h
        · exact Or.inr ⟨Or.inr h, hne⟩
      · rintro (h | ⟨h | h, hne⟩)
        · exact Or.inr (Or.inl h)
        · exact Or.inl h
        · exact Or.inr (Or.inr ⟨h, hne⟩)

/-- Insertion keeps the keys strictly increasing. -/
theorem keysSorted_insertEntry {α : Type} (k : String) (v : α)
    (l : List (String × α)) (hl : KeysSorted l) :
    KeysSorted (insertEntry k v l) := by
  induction l with
  | nil => simp [insertEntry, KeysSorted]
  | cons hd tl ih =>
    obtain ⟨k', v'⟩ := hd
    have hs := List.pairwise_cons.1 hl
    simp only [insertEntry]
    split_ifs with h1 h2
    · refine List.pairwise_cons.2 ⟨?_, hl⟩
      intro p hp
      rcases List.mem_cons.1 hp with h | h
      · rw [h]
        exact h1
      · exact lt_trans h1 (hs.1 p h)
    · subst h2
      exact List.pairwise_cons.2 ⟨hs.1, hs.2⟩
    · refine List.pairwise_cons.2 ⟨?_, ih hs.2⟩
      intro p hp
      rcases (mem_insertEntry k v tl hs.2 p).1 hp with h | ⟨h, _⟩
      · rw [h]
        exact keyCode_lt_of_not h1 h2
      · exact hs.1 p h

namespace StrMap

/-- The map `make(map[string]T)`. -/
def empty {α : Type} : StrMap α := ⟨[], List.Pairwise.nil⟩

/-- The assignment `m[k] = v`. -/
def insert {α : Type} (m : StrMap α) (k : String) (v : α) : StrMap α :=
  ⟨insertEntry k v m.entries, keysSorted_insertEntry k v m.entries m.sorted⟩

/-- The lookup `m[k]`, with `none` for an absent key. -/
def find? {α : Type} (m : StrMap α) (k : String) : Option α := m.entries.lookup k

/-- The keys of `m`, in increasing order. -/
def keys {α : Type} (m : StrMap α) : List String := m.entries.map Prod.fst

end StrMap

/-- A Go `map[string]T`: `none` is the nil map. -/
abbrev GoMap (α : Type) := Option (StrMap α)

/-- The entries of a Go map; the nil map has none. -/
def GoMap.entries {α : Type} : GoMap α → List (String × α)
  | none => []
  | some m => m.entries

/-- The builtin `len(m)`; `len` of the nil map is 0. -/
def GoMap.len {α : Type} (m : GoMap α) : Nat := (GoMap.entries m).length

/-! ## Iteration order of `range` -/

/-- The choices of the runtime while it ranges over a map. -/
abbrev Schedule := List Nat

/-- The order in which `range` visits the entries: each choice `c` picks
the entry at position `c` (cyclically) among those not yet visited.  When
the choices run out the remaining entries are visited in key order. -/
def rangeOrder {β : Type} : Schedule → List β → List β
  | [], l => l
  | c :: cs, l =>
    match l.drop (c % l.length) ++ l.take (c % l.length) with
    | [] => []
    | y :: ys => y :: rangeOrder cs ys

/-! ## Collaborators -/

/-- Modelled from the spec: the type `Script` is declared outside this file;
only its render operation is used, which returns an interchange value or
fails with an error. -/
structure Script where
  Source : SourceResult

/-- Modelled from the spec: the interface `Aggregation` is declared outside
this file; its single capability is "render to an interchange tree, or
fail". -/
structure Aggregation where
  Source : SourceResult

/-! ## The builder -/

/-- Whether an `interface{}` value is nil. -/
def Value.isNil : Value → Bool
  | Value.null => true
  | _ => false

/-- The struct `MinAggregation`. -/
structure MinAggregation where
  field : String
  script : Option Script
  format : String
  missing : Value
  subAggregations : GoMap Aggregation
  meta : GoMap Value

/-- The constructor `NewMinAggregation`: every attribute has its zero value,
except the sub-aggregation map, which is made (empty, not nil). -/
def NewMinAggregation : MinAggregation :=
  { field := "", script := none, format := "", missing := Value.null,
    subAggregations := some StrMap.empty, meta := none }

/-- The setter `Field` (lines 28-31). -/
def MinAggregation.Field (a : MinAggregation) (field : String) : MinAggregation :=
  { a with field := field }

/-- The setter `Script` (lines 33-36); `none` is the nil pointer. -/
def MinAggregation.Script (a : MinAggregation) (script : Option Script) : MinAggregation :=
  { a with script := script }

/-- The setter `Format` (lines 38-41). -/
def MinAggregation.Format (a : MinAggregation) (format : String) : MinAggregation :=
  { a with format := format }

/-- The setter `Missing` (lines 43-46). -/
def MinAggregation.Missing (a : MinAggregation) (missing : Value) : MinAggregation :=
  { a with missing := missing }

/-- The setter `SubAggregation`: `a.subAggregations[name] = subAggregation`.
Assigning to an entry of the nil map panics (`none`). -/
def MinAggregation.SubAggregation (a : MinAggregation) (name : String)
    (subAggregation : Aggregation) : Option MinAggregation :=
  match a.subAggregations with
  | none => none
  | some m => some { a with subAggregations := some (m.insert name subAggregation) }

/-- The setter `Meta` (lines 54-57). -/
def MinAggregation.Meta (a : MinAggregation) (metaData : GoMap Value) : MinAggregation :=
  { a with meta := metaData }

/-- Lines 76-82 of `Source`: render the script, when there is one, into
`opts`; a failure is returned as it is. -/
def scriptSource (script : Option Script) (opts : StrMap Value) :
    Except GoError (StrMap Value) :=
  match script with
  | none => Except.ok opts
  | some s =>
    match s.Source with
    | (_, some err) => Except.error err
    | (src, none) => Except.ok (opts.insert "script" src)

/-- Lines 94-100 of `Source`: the loop over the sub-aggregations, in the
order given; the first failure leaves the loop with that error. -/
def subAggregationsSource :
    List (String × Aggregation) → StrMap Value → Except GoError (StrMap Value)
  | [], aggsMap => Except.ok aggsMap
  | (name, aggregate) :: rest, aggsMap =>
    match aggregate.Source with
    | (_, some err) => Except.error err
    | (src, none) => subAggregationsSource rest (aggsMap.insert name src)

/-- The method `Source`.  In the Go code `opts` and `aggsMap` are stored into
`source` when they are made and filled afterwards through the shared
reference; here each is completed first and stored then.  A `return nil, err`
is the result `(Value.null, some err)`. -/
def MinAggregation.Source (a : MinAggregation) (sched : Schedule) : SourceResult :=
  let source : StrMap Value := StrMap.empty
  let opts : StrMap Value := StrMap.empty
  let opts := if a.field ≠ "" then opts.insert "field" (Value.str a.field) else opts
  match scriptSource a.script opts with
  | Except.error err => (Value.null, some err)
  | Except.ok opts =>
    let opts := if a.format ≠ "" then opts.insert "format" (Value.str a.format) else opts
    let opts := if !a.missing.isNil then opts.insert "missing" a.missing else opts
    let source := source.insert "min" (Value.obj opts.entries)
    match (if GoMap.len a.subAggregations > 0 then
        match subAggregationsSource
            (rangeOrder sched (GoMap.entries a.subAggregations)) StrMap.empty with
        | Except.error err => Except.error err
        | Except.ok aggsMap =>
          Except.ok (source.insert "aggregations" (Value.obj aggsMap.entries))
      else Except.ok source) with
    | Except.error err => (Value.null, some err)
    | Except.ok source =>
      let source :=
        if GoMap.len a.meta > 0 then
          source.insert "meta" (Value.obj (GoMap.entries a.meta))
        else source
      (Value.obj source.entries, none)

/-! ## Sub-aggregations whose render differs from call to call

An `Aggregation` above stands for a collaborator with one render outcome.  A
sub-aggregation that is itself a `MinAggregation` is not of that kind: each
call of its `Source` ranges over its own map afresh.  The definitions below
let the outcome of a sub-aggregation depend on the call. -/

/-- Modelled from the spec: the interface `Aggregation`, for an implementation
whose render may differ from one call to the next; `Source c` is the outcome
of the call during which the runtime makes the choices `c`. -/
structure CallAggregation where
  Source : Schedule → SourceResult

/-- A `MinAggregation` is itself an `Aggregation`: every call of its `Source`
ranges over its sub-aggregations in an order of its own. -/
def MinAggregation.toCallAggregation (a : MinAggregation) : CallAggregation :=
  ⟨fun sched => a.Source sched⟩

/-- Apply `f`, which sees the key, to every value of an association list. -/
def mapEntriesWithKey {α β : Type} (f : String → α → β) (l : List (String × α)) :
    List (String × β) :=
  l.map (fun p => (p.1, f p.1 p.2))

theorem keysSorted_mapEntriesWithKey {α β : Type} (f : String → α → β)
    (l : List (String × α)) (h : KeysSorted l) : KeysSorted (mapEntriesWithKey f l) := by
  unfold KeysSorted mapEntriesWithKey
  rw [List.pairwise_map]
  exact h

/-- Apply `f`, which sees the key, to every value of a map. -/
def StrMap.mapWithKey {α β : Type} (f : String → α → β) (m : StrMap α) : StrMap β :=
  ⟨mapEntriesWithKey f m.entries, keysSorted_mapEntriesWithKey f m.entries m.sorted⟩

/-- The struct `MinAggregation` with sub-aggregations whose render may differ
from call to call. -/
structure CallBuilder where
  field : String
  script : Option Script
  format : String
  missing : Value
  subAggregations : GoMap CallAggregation
  meta : GoMap Value

/-- The builder as one call of `Source` finds it: every sub-aggregation with
the outcome its `Source` has during this call, `inner n` being the choices of
the runtime inside the render of the sub-aggregation registered as `n`. -/
def CallBuilder.atCall (b : CallBuilder) (inner : String → Schedule) : MinAggregation :=
  { field := b.field
    script := b.script
    format := b.format
    missing := b.missing
    subAggregations :=
      match b.subAggregations with
      | none => none
      | some m => some (m.mapWithKey (fun n s => ⟨s.Source (inner n)⟩))
    meta := b.meta }

/-- One call of the method `Source` on such a builder: the code of `Source`,
each `aggregate.Source()` returning its outcome of this call. -/
def CallBuilder.Source (b : CallBuilder) (sched : Schedule) (inner : String → Schedule) :
    SourceResult :=
  (b.atCall inner).Source sched

/-- The script of the builder is set and its render fails. -/
def CallBuilder.scriptFails (b : CallBuilder) : Prop :=
  ∃ s, b.script = some s ∧ s.Source.2 ≠ none

/-! ## Sequences of setter calls -/

/-- One call of a setter, with its argument. -/
inductive Setter where
  | Field (field : String) : Setter
  | Script (script : Option Script) : Setter
  | Format (format : String) : Setter
  | Missing (missing : Value) : Setter
  | SubAggregation (name : String) (subAggregation : Aggregation) : Setter
  | Meta (metaData : GoMap Value) : Setter

/-- Perform one setter call on a builder. -/
def MinAggregation.call (a : MinAggregation) : Setter → Option MinAggregation
  | Setter.Field f => some (a.Field f)
  | Setter.Script s => some (a.Script s)
  | Setter.Format f => some (a.Format f)
  | Setter.Missing v => some (a.Missing v)
  | Setter.SubAggregation n s => a.SubAggregation n s
  | Setter.Meta m => some (a.Meta m)

/-- Perform a chain of setter calls, first call first. -/
def MinAggregation.calls (a : MinAggregation) : List Setter → Option MinAggregation
  | [] => some a
  | c :: cs =>
    match a.call c with
    | none => none
    | some a' => a'.calls cs

/-! ## Reading a rendered document -/

/-- The value at key `k` of a mapping value; `none` when the key is absent
or the value is not a mapping. -/
def Value.get? (k : String) : Value → Option Value
  | Value.obj entries => entries.lookup k
  | _ => none

/-- The value at key `k` of the `"min"` mapping of a rendered document. -/
def minOption (k : String) (out : Value) : Option Value :=
  match out.get? "min" with
  | some opts => opts.get? k
  | none => none

/-- The script of the builder is set and its render fails. -/
def MinAggregation.scriptFails (a : MinAggregation) : Prop :=
  ∃ s, a.script = some s ∧ s.Source.2 ≠ none

/-- Some registered sub-aggregation fails to render. -/
def MinAggregation.subAggregationFails (a : MinAggregation) : Prop :=
  ∃ p ∈ GoMap.entries a.subAggregations, p.2.Source.2 ≠ none

/-- The renders of the sub-aggregations, name by name. -/
def renderEntries (l : List (String × Aggregation)) : List (String × Value) :=
  l.map (fun p => (p.1, p.2.Source.1))

/-- The entries of `opts` when every component renders. -/
def MinAggregation.optsEntries (a : MinAggregation) : List (String × Value) :=
  (if a.field ≠ "" then [("field", Value.str a.field)] else []) ++
  (if a.format ≠ "" then [("format", Value.str a.format)] else []) ++
  (if !a.missing.isNil then [("missing", a.missing)] else []) ++
  (match a.script with
   | some s => [("script", s.Source.1)]
   | none => [])

/-- The entries of `source` when every component renders. -/
def MinAggregation.sourceEntries (a : MinAggregation) : List (String × Value) :=
  (if GoMap.len a.subAggregations > 0 then
    [("aggregations", Value.obj (renderEntries (GoMap.entries a.subAggregations)))]
   else []) ++
  (if GoMap.len a.meta > 0 then [("meta", Value.obj (GoMap.entries a.meta))] else []) ++
  [("min", Value.obj a.optsEntries)]

/-- The map built by a run of the loop in which no render fails. -/
def insertAll (order : List (String × Aggregation)) (m : StrMap Value) : StrMap Value :=
  order.foldl (fun acc p => acc.insert p.1 p.2.Source.1) m

/-! ## Arguments of the calls of a chain -/

/-- The argument of a `Missing` call. -/
def Setter.missingArg : Setter → Option Value
  | Setter.Missing v => some v
  | _ => none

/-- The argument of a `Meta` call. -/
def Setter.metaArg : Setter → Option (GoMap Value)
  | Setter.Meta m => some m
  | _ => none

/-- The sub-aggregation passed by a `SubAggregation` call for the name `n`. -/
def Setter.subArg (n : String) : Setter → Option Aggregation
  | Setter.SubAggregation n' s => if n' = n then some s else none
  | _ => none

/-- The argument selected by `f` in the last call of the chain that has one;
`init` when no call has one. -/
def lastArg {β : Type} (f : Setter → Option β) (init : Option β) : List Setter → Option β
  | [] => init
  | c :: cs =>
    lastArg f (match f c with
               | some v => some v
               | none => init) cs

/-! ## Example collaborators and builders -/

/-- A sub-aggregation whose render fails with the error `msg`. -/
def failingAggregation (msg : String) : Aggregation :=
  ⟨(Value.null, some ⟨msg⟩)⟩

/-- A sub-aggregation that renders to `{"x": 1}`. -/
def nestedAggregation : Aggregation :=
  ⟨(Value.obj [("x", Value.num 1)], none)⟩

/-- A builder with the sub-aggregations `"a"`, which renders, and `"b"`,
which fails. -/
def oneFailing : MinAggregation :=
  { NewMinAggregation with
    subAggregations :=
      some ((StrMap.empty.insert "a" nestedAggregation).insert "b"
        (failingAggregation "boom")) }

/-- A builder with two sub-aggregations failing with different errors. -/
def twoFailing : MinAggregation :=
  { NewMinAggregation with
    subAggregations :=
      some ((StrMap.empty.insert "a" (failingAggregation "first")).insert "b"
        (failingAggregation "second")) }

/-- The keys of a mapping value; a value that is not a mapping has none. -/
def Value.keys : Value → List String
  | Value.obj entries => entries.map Prod.fst
  | _ => []

/-- The argument of a `Field` call. -/
def Setter.fieldArg : Setter → Option String
  | Setter.Field f => some f
  | _ => none

/-- The argument of a `Script` call. -/
def Setter.scriptArg : Setter → Option (Option Elastic.Script)
  | Setter.Script s => some s
  | _ => none

/-- The argument of a `Format` call. -/
def Setter.formatArg : Setter → Option String
  | Setter.Format f => some f
  | _ => none

/-- Two calls write the same attribute: the same scalar attribute, or the
entry of the sub-aggregation map at the same name. -/
def Setter.sameAttribute : Setter → Setter → Bool
  | Setter.Field _, Setter.Field _ => true
  | Setter.Script _, Setter.Script _ => true
  | Setter.Format _, Setter.Format _ => true
  | Setter.Missing _, Setter.Missing _ => true
  | Setter.Meta _, Setter.Meta _ => true
  | Setter.SubAggregation n _, Setter.SubAggregation n' _ => decide (n = n')
  | _, _ => false

/-! ## The builder in memory

A second embedding of `Source`, over an explicit heap, for the claims on what
`Source` writes.  Maps are objects of the heap and are shared by reference, as
in Go; the builder is an object too, reached through the receiver pointer. -/

/-- An `interface{}` value in memory: an interchange tree, or a reference to a
map object of the heap. -/
inductive Cell where
  | lit (v : Value) : Cell
  | ref (addr : Nat) : Cell

/-- Whether an `interface{}` value in memory is nil. -/
def Cell.isNil : Cell → Bool
  | Cell.lit v => v.isNil
  | Cell.ref _ => false

/-- The struct `MinAggregation` in memory: the maps are held by reference
(`none` is the nil map). -/
structure BuilderRec where
  field : String
  script : Option Script
  format : String
  missing : Cell
  subAggregations : Option Nat
  meta : Option Nat

/-- An object of the heap: a builder struct, a `map[string]Aggregation` or a
`map[string]interface{}`. -/
inductive Obj where
  | builder (b : BuilderRec) : Obj
  | aggregations (m : StrMap Aggregation) : Obj
  | values (m : StrMap Cell) : Obj

/-- The heap; an address is a position in the list. -/
abbrev Heap := List Obj

/-- The struct a receiver pointer points to.  The zero struct stands for a
pointer that does not point to a builder, which the Go type system excludes. -/
def Heap.builderAt (h : Heap) (a : Nat) : BuilderRec :=
  match h.get? a with
  | some (Obj.builder b) => b
  | _ => ⟨"", none, "", Cell.lit Value.null, none, none⟩

/-- The entries of the `map[string]Aggregation` a reference points to; the nil
map has none. -/
def Heap.aggregationsAt (h : Heap) : Option Nat → List (String × Aggregation)
  | none => []
  | some addr =>
    match h.get? addr with
    | some (Obj.aggregations m) => m.entries
    | _ => []

/-- The builtin `len` of the map a reference points to; `len` of the nil map
is 0. -/
def Heap.lenAt (h : Heap) : Option Nat → Nat
  | none => 0
  | some addr =>
    match h.get? addr with
    | some (Obj.aggregations m) => m.entries.length
    | some (Obj.values m) => m.entries.length
    | _ => 0

/-- The statement `m := make(map[string]interface{})`: a new empty map object
at the next free address. -/
def Heap.make (h : Heap) : Heap × Nat :=
  (h ++ [Obj.values StrMap.empty], h.length)

/-- The statement `m[k] = c` on the `map[string]interface{}` at `addr`. -/
def Heap.assign (h : Heap) (addr : Nat) (k : String) (c : Cell) : Heap :=
  match h.get? addr with
  | some (Obj.values m) => h.set addr (Obj.values (m.insert k c))
  | _ => h

/-- Lines 76-82 of `Source` on the heap: the result is the heap at the end of
the block and the error to return, if any. -/
def scriptSourceMem (script : Option Script) (opts : Nat) (h : Heap) :
    Heap × Option GoError :=
  match script with
  | none => (h, none)
  | some s =>
    match s.Source with
    | (_, some err) => (h, some err)
    | (src, none) => (h.assign opts "script" (Cell.lit src), none)

/-- Lines 94-100 of `Source` on the heap: the loop over the sub-aggregations
in the order given, writing into the map at `aggsMap`. -/
def subAggregationsSourceMem :
    List (String × Aggregation) → Nat → Heap → Heap × Option GoError
  | [], _, h => (h, none)
  | (name, aggregate) :: rest, aggsMap, h =>
    match aggregate.Source with
    | (_, some err) => (h, some err)
    | (src, none) =>
      subAggregationsSourceMem rest aggsMap (h.assign aggsMap name (Cell.lit src))

/-- The method `Source` on the heap, statement by statement; `a` is the
receiver pointer.  The result is the heap when `Source` returns and the pair
it returns. -/
def SourceMem (h₀ : Heap) (a : Nat) (sched : Schedule) : Heap × Cell × Option GoError :=
  let source := (h₀.make).2
  let h := (h₀.make).1
  let opts := (h.make).2
  let h := (h.make).1
  let h := h.assign source "min" (Cell.ref opts)
  let h :=
    if (h.builderAt a).field ≠ "" then
      h.assign opts "field" (Cell.lit (Value.str (h.builderAt a).field))
    else h
  match scriptSourceMem (h.builderAt a).script opts h with
  | (h, some err) => (h, Cell.lit Value.null, some err)
  | (h, none) =>
    let h :=
      if (h.builderAt a).format ≠ "" then
        h.assign opts "format" (Cell.lit (Value.str (h.builderAt a).format))
      else h
    let h :=
      if !(h.builderAt a).missing.isNil then
        h.assign opts "missing" (h.builderAt a).missing
      else h
    match (if h.lenAt (h.builderAt a).subAggregations > 0 then
        subAggregationsSourceMem
          (rangeOrder sched (h.aggregationsAt (h.builderAt a).subAggregations))
          (h.make).2
          ((h.make).1.assign source "aggregations" (Cell.ref (h.make).2))
      else (h, none)) with
    | (h, some err) => (h, Cell.lit Value.null, some err)
    | (h, none) =>
      let h :=
        if h.lenAt (h.builderAt a).meta > 0 then
          match (h.builderAt a).meta with
          | some m => h.assign source "meta" (Cell.ref m)
          | none => h
        else h
      (h, Cell.ref source, none)

/-- The heap `h'` is `h` with the objects below address `n` untouched (and no
object removed). -/
def Heap.Preserves (n : Nat) (h h' : Heap) : Prop :=
  h.length ≤ h'.length ∧ ∀ i, i < n → h'.get? i = h.get? i

/-! ## Reading the heap back -/

/-- The value a cell holds when it is a tree; a reference reads as nil. -/
def Cell.toValue : Cell → Value
  | Cell.lit v => v
  | Cell.ref _ => Value.null

/-- Apply `f` to every value of an association list. -/
def mapEntries {α β : Type} (f : α → β) (l : List (String × α)) : List (String × β) :=
  l.map (fun p => (p.1, f p.2))

/-- The tree a cell stands for, following references `fuel` levels deep. -/
def Heap.read (h : Heap) : Nat → Cell → Value
  | _, Cell.lit v => v
  | 0, Cell.ref _ => Value.null
  | fuel + 1, Cell.ref addr =>
    match h.get? addr with
    | some (Obj.values m) => Value.obj (mapEntries (Heap.read h fuel) m.entries)
    | _ => Value.null

theorem keysSorted_mapEntries {α β : Type} (f : α → β) (l : List (String × α))
    (h : KeysSorted l) : KeysSorted (mapEntries f l) := by
  unfold KeysSorted mapEntries
  rw [List.pairwise_map]
  exact h

/-- Apply `f` to every value of a map. -/
def StrMap.mapValues {α β : Type} (f : α → β) (m : StrMap α) : StrMap β :=
  ⟨mapEntries f m.entries, keysSorted_mapEntries f m.entries m.sorted⟩

/-- The builder a receiver pointer stands for, its maps read from the heap. -/
def Heap.toMinAggregation (h : Heap) (a : Nat) : MinAggregation :=
  { field := (h.builderAt a).field
    script := (h.builderAt a).script
    format := (h.builderAt a).format
    missing := (h.builderAt a).missing.toValue
    subAggregations :=
      match (h.builderAt a).subAggregations with
      | none => none
      | some s =>
        match h.get? s with
        | some (Obj.aggregations m) => some m
        | _ => none
    meta :=
      match (h.builderAt a).meta with
      | none => none
      | some t =>
        match h.get? t with
        | some (Obj.values m) => some (m.mapValues Cell.toValue)
        | _ => none }

/-- The heap is well typed at the receiver `a`: `a` points to a builder, whose
map references point to maps of the declared types and whose `missing` value
is a tree. -/
def Heap.WellTyped (h : Heap) (a : Nat) : Prop :=
  (∃ b, h.get? a = some (Obj.builder b)) ∧
  (∃ v, (h.builderAt a).missing = Cell.lit v) ∧
  (∀ s, (h.builderAt a).subAggregations = some s →
    ∃ m, h.get? s = some (Obj.aggregations m)) ∧
  (∀ t, (h.builderAt a).meta = some t → ∃ m, h.get? t = some (Obj.values m))

/-- The state of the heap while `Source` fills `opts`: the objects that existed
at the call are untouched, `source` holds `S`, and `opts` holds the cells of
the pure map `Op`. -/
def OptsSim (h₀ h : Heap) (S : StrMap Cell) (Op : StrMap Value) : Prop :=
  Heap.Preserves h₀.length h₀ h ∧ h.get? h₀.length = some (Obj.values S) ∧
  ∃ O, h.get? (h₀.length + 1) = some (Obj.values O) ∧
    mapEntries Cell.toValue O.entries = Op.entries

/-- An example heap: a metadata map at address 0, a sub-aggregation map at
address 1 and, at address 2, a builder that refers to both. -/
def exampleHeap : Heap :=
  [Obj.values (StrMap.empty.insert "owner" (Cell.lit (Value.str "team-a"))),
   Obj.aggregations (StrMap.empty.insert "nested" nestedAggregation),
   Obj.builder ⟨"price", none, "", Cell.lit (Value.num 0), some 1, some 0⟩]

/-- A builder whose single sub-aggregation, `"inner"`, is the builder
`twoFailing`. -/
def nestedTwoFailing : CallBuilder :=
  { field := "", script := none, format := "", missing := Value.null,
    subAggregations := some (StrMap.empty.insert "inner" twoFailing.toCallAggregation),
    meta := none }

/-- A builder whose single sub-aggregation, `"inner"`, is the builder
`oneFailing`. -/
def nestedOneFailing : CallBuilder :=
  { field := "", script := none, format := "", missing := Value.null,
    subAggregations := some (StrMap.empty.insert "inner" oneFailing.toCallAggregation),
    meta := none }

/-- The zero value `MinAggregation{}` of the struct: every field has its zero
value, the sub-aggregation map is nil. -/
def zeroMinAggregation : MinAggregation :=
  { field := "", script := none, format := "", missing := Value.null,
    subAggregations := none, meta := none }

/-! ## Lemmas on maps and iteration -/

theorem rangeOrder_perm {β : Type} (sched : Schedule) (l : List β) :
    (rangeOrder sched l).Perm l := by
  induction sched generalizing l with
  | nil => exact List.Perm.refl _
  | cons c cs ih =>
    have hrot : (l.drop (c % l.length) ++ l.take (c % l.length)).Perm l := by
      have h1 : (l.drop (c % l.length) ++ l.take (c % l.length)).Perm
          (l.take (c % l.length) ++ l.drop (c % l.length)) := List.perm_append_comm
      rw [List.take_append_drop] at h1
      exact h1
    unfold rangeOrder
    generalize l.drop (c % l.length) ++ l.take (c % l.length) = r at hrot
    cases r with
    | nil => exact hrot
    | cons y ys => exact ((ih ys).cons y).trans hrot

/-- Every visiting order is the order of some schedule. -/
theorem rangeOrder_complete {β : Type} (l' l : List β) (h : l'.Perm l) :
    ∃ sched, rangeOrder sched l = l' := by
  induction l' generalizing l with
  | nil =>
    have hl : l = [] := List.Perm.eq_nil h.symm
    subst hl
    exact ⟨[], rfl⟩
  | cons y ys ih =>
    have hy : y ∈ l := h.subset (List.mem_cons_self _ _)
    obtain ⟨l₁, l₂, hl⟩ := List.append_of_mem hy
    subst hl
    have hys : ys.Perm (l₂ ++ l₁) := by
      have h1 : (y :: ys).Perm (y :: (l₁ ++ l₂)) := h.trans List.perm_middle
      exact ((List.perm_cons y).1 h1).trans List.perm_append_comm
    obtain ⟨cs, hcs⟩ := ih _ hys
    refine ⟨l₁.length :: cs, ?_⟩
    have hmod : l₁.length % (l₁ ++ y :: l₂).length = l₁.length :=
      Nat.mod_eq_of_lt (by simp)
    simp only [rangeOrder, hmod, List.drop_left, List.take_left, List.cons_append, hcs]

theorem perm_insertEntry {α : Type} (k : String) (v : α) (l : List (String × α))
    (hk : ∀ p ∈ l, p.1 ≠ k) : (insertEntry k v l).Perm ((k, v) :: l) := by
  induction l with
  | nil => exact List.Perm.refl _
  | cons hd tl ih =>
    obtain ⟨k', v'⟩ := hd
    simp only [insertEntry]
    split_ifs with h1 h2
    · exact List.Perm.refl _
    · exact absurd h2.symm (hk (k', v') (List.mem_cons_self _ _))
    · exact ((ih (fun p hp => hk p (List.mem_cons_of_mem _ hp))).cons (k', v')).trans
        (List.Perm.swap _ _ _)

theorem lookup_cons_ite {α : Type} (n k : String) (v : α) (l : List (String × α)) :
    ((k, v) :: l).lookup n = if n = k then some v else l.lookup n := by
  by_cases h : n = k
  · subst h
    simp [List.lookup]
  · have hb : (n == k) = false := by simpa using h
    simp only [List.lookup, hb, h, if_false]

theorem lookup_insertEntry {α : Type} (n k : String) (v : α) (l : List (String × α)) :
    (insertEntry k v l).lookup n = if n = k then some v else l.lookup n := by
  induction l with
  | nil =>
    simp only [insertEntry, lookup_cons_ite]
  | cons hd tl ih =>
    obtain ⟨k', v'⟩ := hd
    by_cases h1 : keyCode k < keyCode k'
    · simp only [insertEntry, h1, if_true, lookup_cons_ite]
    · by_cases h2 : k = k'
      · subst h2
        simp only [insertEntry, h1, if_false, if_true, lookup_cons_ite]
        by_cases h : n = k <;> simp [h]
      · simp only [insertEntry, h1, h2, if_false, lookup_cons_ite, ih]
        by_cases h : n = k
        · subst h
          simp [h2]
        · simp [h]

theorem subAggregationsSource_error (order : List (String × Aggregation))
    (m : StrMap Value) (e : GoError)
    (h : subAggregationsSource order m = Except.error e) :
    ∃ p ∈ order, p.2.Source.2 = some e := by
  induction order generalizing m with
  | nil => simp [subAggregationsSource] at h
  | cons hd tl ih =>
    obtain ⟨name, agg⟩ := hd
    rcases hsrc : agg.Source with ⟨src, err⟩
    cases err with
    | none =>
      simp only [subAggregationsSource, hsrc] at h
      obtain ⟨p, hp, hpe⟩ := ih _ h
      exact ⟨p, List.mem_cons_of_mem _ hp, hpe⟩
    | some e' =>
      simp only [subAggregationsSource, hsrc] at h
      refine ⟨(name, agg), List.mem_cons_self _ _, ?_⟩
      simp only [hsrc]
      injection h with h
      rw [h]

theorem subAggregationsSource_ok (order : List (String × Aggregation))
    (m : StrMap Value) (h : ∀ p ∈ order, p.2.Source.2 = none) :
    subAggregationsSource order m = Except.ok (insertAll order m) := by
  induction order generalizing m with
  | nil => rfl
  | cons hd tl ih =>
    obtain ⟨name, agg⟩ := hd
    have h1 : agg.Source.2 = none := h (name, agg) (List.mem_cons_self _ _)
    rcases hsrc : agg.Source with ⟨src, err⟩
    rw [hsrc] at h1
    simp only at h1
    subst h1
    simp only [subAggregationsSource, hsrc, insertAll, List.foldl_cons]
    exact ih _ (fun p hp => h p (List.mem_cons_of_mem _ hp))

theorem subAggregationsSource_fails (order : List (String × Aggregation))
    (m : StrMap Value) (h : ∃ p ∈ order, p.2.Source.2 ≠ none) :
    ∃ e, subAggregationsSource order m = Except.error e := by
  induction order generalizing m with
  | nil =>
    obtain ⟨p, hp, _⟩ := h
    cases hp
  | cons hd tl ih =>
    obtain ⟨name, agg⟩ := hd
    rcases hsrc : agg.Source with ⟨src, err⟩
    cases err with
    | some e' => exact ⟨e', by simp only [subAggregationsSource, hsrc]⟩
    | none =>
      simp only [subAggregationsSource, hsrc]
      apply ih
      obtain ⟨p, hp, hpe⟩ := h
      rcases List.mem_cons.1 hp with h1 | h1
      · subst h1
        simp [hsrc] at hpe
      · exact ⟨p, h1, hpe⟩

theorem insertAll_perm (order : List (String × Aggregation)) (m : StrMap Value)
    (hnodup : (order.map Prod.fst).Nodup)
    (hdisj : ∀ p ∈ order, ∀ q ∈ m.entries, q.1 ≠ p.1) :
    (insertAll order m).entries.Perm (m.entries ++ renderEntries order) := by
  induction order generalizing m with
  | nil => simp [insertAll, renderEntries]
  | cons hd tl ih =>
    have hn := List.nodup_cons.1 (show (hd.1 :: tl.map Prod.fst).Nodup from hnodup)
    have hstep : (m.insert hd.1 hd.2.Source.1).entries.Perm
        ((hd.1, hd.2.Source.1) :: m.entries) :=
      perm_insertEntry _ _ _ (fun q hq => hdisj hd (List.mem_cons_self _ _) q hq)
    have hdisj' : ∀ p ∈ tl, ∀ q ∈ (m.insert hd.1 hd.2.Source.1).entries, q.1 ≠ p.1 := by
      intro p hp q hq
      rcases List.mem_cons.1 (hstep.subset hq) with h1 | h1
      · rw [h1]
        intro e
        exact hn.1 (List.mem_map.2 ⟨p, hp, e.symm⟩)
      · exact hdisj p (List.mem_cons_of_mem _ hp) q h1
    have h2 := ih (m.insert hd.1 hd.2.Source.1) hn.2 hdisj'
    have h3 : ((m.insert hd.1 hd.2.Source.1).entries ++ renderEntries tl).Perm
        (((hd.1, hd.2.Source.1) :: m.entries) ++ renderEntries tl) :=
      hstep.append_right _
    have h4 : (((hd.1, hd.2.Source.1) :: m.entries) ++ renderEntries tl).Perm
        (m.entries ++ renderEntries (hd :: tl)) := by
      simp only [renderEntries, List.map_cons, List.cons_append]
      exact List.perm_middle.symm
    simp only [insertAll, List.foldl_cons] at h2 ⊢
    exact h2.trans (h3.trans h4)

theorem keysSorted_nodup {α : Type} (l : List (String × α)) (h : KeysSorted l) :
    (l.map Prod.fst).Nodup := by
  unfold List.Nodup
  rw [List.pairwise_map]
  exact h.imp (fun hlt => keyCode_lt_ne hlt)

theorem keysSorted_renderEntries (l : List (String × Aggregation)) (h : KeysSorted l) :
    KeysSorted (renderEntries l) := by
  unfold KeysSorted renderEntries
  rw [List.pairwise_map]
  exact h

theorem keysSorted_ext {α : Type} (l₁ l₂ : List (String × α)) (hp : l₁.Perm l₂)
    (h₁ : KeysSorted l₁) (h₂ : KeysSorted l₂) : l₁ = l₂ := by
  haveI : IsAntisymm (String × α) (fun x y => keyCode x.1 < keyCode y.1) :=
    ⟨fun _ _ h1 h2 => absurd (lt_trans h1 h2) (lt_irrefl _)⟩
  exact List.eq_of_perm_of_sorted hp h₁ h₂

/-- Whatever the order of the visit, a loop without failure builds the map of
the renders. -/
theorem insertAll_eq (order l : List (String × Aggregation)) (hp : order.Perm l)
    (hl : KeysSorted l) :
    (insertAll order StrMap.empty).entries = renderEntries l := by
  have hnd : (order.map Prod.fst).Nodup :=
    ((hp.map Prod.fst).nodup_iff).2 (keysSorted_nodup l hl)
  have h1 := insertAll_perm order StrMap.empty hnd (fun _ _ q hq => by cases hq)
  have h2 : (insertAll order StrMap.empty).entries.Perm (renderEntries l) := by
    refine h1.trans ?_
    simp only [StrMap.empty, List.nil_append]
    exact hp.map _
  exact keysSorted_ext _ _ h2 (insertAll order StrMap.empty).sorted
    (keysSorted_renderEntries l hl)

theorem GoMap.entries_sorted {α : Type} (m : GoMap α) : KeysSorted (GoMap.entries m) := by
  cases m with
  | none => exact List.Pairwise.nil
  | some m => exact m.sorted

/-! ## What `Source` returns -/

theorem scriptSource_error (script : Option Script) (opts : StrMap Value) (e : GoError)
    (h : scriptSource script opts = Except.error e) :
    ∃ s, script = some s ∧ s.Source.2 = some e := by
  cases script with
  | none => simp [scriptSource] at h
  | some s =>
    rcases hsrc : s.Source with ⟨src, err⟩
    cases err with
    | none => simp [scriptSource, hsrc] at h
    | some e' =>
      simp only [scriptSource, hsrc] at h
      injection h with h
      exact ⟨s, rfl, by rw [hsrc, h]⟩

theorem scriptSource_of_fails (s : Script) (opts : StrMap Value) (e : GoError)
    (h : s.Source.2 = some e) : scriptSource (some s) opts = Except.error e := by
  rcases hsrc : s.Source with ⟨src, err⟩
  rw [hsrc] at h
  simp only at h
  subst h
  simp only [scriptSource, hsrc]

theorem scriptSource_ok (script : Option Script) (opts : StrMap Value)
    (h : ∀ s, script = some s → s.Source.2 = none) :
    scriptSource script opts = Except.ok
      (match script with
       | none => opts
       | some s => opts.insert "script" s.Source.1) := by
  cases script with
  | none => rfl
  | some s =>
    have h1 := h s rfl
    rcases hsrc : s.Source with ⟨src, err⟩
    rw [hsrc] at h1
    simp only at h1
    subst h1
    simp only [scriptSource, hsrc]

/-- A failing script makes `Source` return its error and the nil value. -/
theorem Source_of_script_error (a : MinAggregation) (sched : Schedule) (s : Script)
    (e : GoError) (hs : a.script = some s) (he : s.Source.2 = some e) :
    a.Source sched = (Value.null, some e) := by
  unfold MinAggregation.Source
  simp only [hs, scriptSource_of_fails s _ e he]

theorem not_scriptFails_iff (a : MinAggregation) :
    ¬ a.scriptFails ↔ ∀ s, a.script = some s → s.Source.2 = none := by
  unfold MinAggregation.scriptFails
  constructor
  · intro h s hs
    by_contra hne
    exact h ⟨s, hs, hne⟩
  · rintro h ⟨s, hs, hne⟩
    exact hne (h s hs)

theorem not_subAggregationFails_iff (a : MinAggregation) :
    ¬ a.subAggregationFails ↔
      ∀ p ∈ GoMap.entries a.subAggregations, p.2.Source.2 = none := by
  unfold MinAggregation.subAggregationFails
  constructor
  · intro h p hp
    by_contra hne
    exact h ⟨p, hp, hne⟩
  · rintro h ⟨p, hp, hne⟩
    exact hne (h p hp)

/-- When the script does not fail and a sub-aggregation does, `Source`
returns the nil value and the error of a failing sub-aggregation. -/
theorem Source_of_sub_error (a : MinAggregation) (sched : Schedule)
    (hscript : ¬ a.scriptFails) (hsub : a.subAggregationFails) :
    ∃ p ∈ GoMap.entries a.subAggregations, ∃ e,
      p.2.Source.2 = some e ∧ a.Source sched = (Value.null, some e) := by
  have hs := scriptSource_ok a.script
    (if a.field ≠ "" then StrMap.empty.insert "field" (Value.str a.field) else StrMap.empty)
    ((not_scriptFails_iff a).1 hscript)
  have hperm := rangeOrder_perm sched (GoMap.entries a.subAggregations)
  obtain ⟨p, hp, hpe⟩ := hsub
  have hlen : GoMap.len a.subAggregations > 0 := by
    unfold GoMap.len
    exact List.length_pos_of_mem hp
  obtain ⟨e, he⟩ := subAggregationsSource_fails
    (rangeOrder sched (GoMap.entries a.subAggregations)) StrMap.empty
    ⟨p, hperm.symm.subset hp, hpe⟩
  obtain ⟨q, hq, hqe⟩ := subAggregationsSource_error _ _ _ he
  refine ⟨q, hperm.subset hq, e, hqe, ?_⟩
  unfold MinAggregation.Source
  simp only [hs, hlen, if_true, he]

/-- When no component fails, `Source` returns the document `sourceEntries`
and the nil error. -/
theorem Source_ok (a : MinAggregation) (sched : Schedule)
    (hscript : ¬ a.scriptFails) (hsub : ¬ a.subAggregationFails) :
    a.Source sched = (Value.obj a.sourceEntries, none) := by
  have hperm := rangeOrder_perm sched (GoMap.entries a.subAggregations)
  have hall : ∀ p ∈ rangeOrder sched (GoMap.entries a.subAggregations),
      p.2.Source.2 = none :=
    fun p hp => (not_subAggregationFails_iff a).1 hsub p (hperm.subset hp)
  have hloop := subAggregationsSource_ok _ StrMap.empty hall
  have hmap := insertAll_eq _ _ hperm (GoMap.entries_sorted a.subAggregations)
  have hsc := (not_scriptFails_iff a).1 hscript
  obtain ⟨field, script, format, missing, subs, meta⟩ := a
  simp only at hloop hmap hsc
  cases script with
  | none =>
    simp only [MinAggregation.Source, scriptSource, hloop, hmap,
      MinAggregation.sourceEntries, MinAggregation.optsEntries]
    by_cases h1 : field = "" <;> by_cases h2 : format = "" <;>
    cases h3 : missing.isNil <;>
    by_cases h4 : GoMap.len subs > 0 <;>
    by_cases h5 : GoMap.len meta > 0 <;>
    simp +decide [h1, h2, h4, h5, StrMap.insert, StrMap.empty, insertEntry]
  | some s =>
    have hs1 := hsc s rfl
    rcases hsrc : s.Source with ⟨src, err⟩
    rw [hsrc] at hs1
    simp only at hs1
    subst hs1
    simp only [MinAggregation.Source, scriptSource, hsrc, hloop, hmap,
      MinAggregation.sourceEntries, MinAggregation.optsEntries]
    by_cases h1 : field = "" <;> by_cases h2 : format = "" <;>
    cases h3 : missing.isNil <;>
    by_cases h4 : GoMap.len subs > 0 <;>
    by_cases h5 : GoMap.len meta > 0 <;>
    simp +decide [h1, h2, h4, h5, StrMap.insert, StrMap.empty, insertEntry]

theorem Source_error_iff (a : MinAggregation) (sched : Schedule) :
    (a.Source sched).2 ≠ none ↔ a.scriptFails ∨ a.subAggregationFails := by
  constructor
  · intro h
    by_contra hcon
    rw [not_or] at hcon
    rw [Source_ok a sched hcon.1 hcon.2] at h
    exact h rfl
  · rintro (h | h)
    · obtain ⟨s, hs, hne⟩ := h
      obtain ⟨e, he⟩ := Option.ne_none_iff_exists'.1 hne
      rw [Source_of_script_error a sched s e hs he]
      simp
    · by_cases hscript : a.scriptFails
      · obtain ⟨s, hs, hne⟩ := hscript
        obtain ⟨e, he⟩ := Option.ne_none_iff_exists'.1 hne
        rw [Source_of_script_error a sched s e hs he]
        simp
      · obtain ⟨p, _, e, _, he⟩ := Source_of_sub_error a sched hscript h
        rw [he]
        simp

/-- A successful render is the document `sourceEntries`. -/
theorem Source_eq_ok (a : MinAggregation) (sched : Schedule) (out : Value)
    (h : a.Source sched = (out, none)) :
    ¬ a.scriptFails ∧ ¬ a.subAggregationFails ∧ out = Value.obj a.sourceEntries := by
  have h1 : ¬ (a.scriptFails ∨ a.subAggregationFails) := by
    rw [← Source_error_iff a sched, h]
    simp
  rw [not_or] at h1
  refine ⟨h1.1, h1.2, ?_⟩
  have h2 := Source_ok a sched h1.1 h1.2
  rw [h] at h2
  exact (Prod.mk.inj h2).1

/-! ## Reading the document `sourceEntries` -/

theorem get_min_sourceEntries (a : MinAggregation) :
    (Value.obj a.sourceEntries).get? "min" = some (Value.obj a.optsEntries) := by
  unfold MinAggregation.sourceEntries Value.get?
  by_cases h4 : GoMap.len a.subAggregations > 0 <;>
  by_cases h5 : GoMap.len a.meta > 0 <;>
  simp +decide [h4, h5, List.lookup]

theorem get_aggregations_sourceEntries (a : MinAggregation) :
    (Value.obj a.sourceEntries).get? "aggregations" =
      if GoMap.len a.subAggregations > 0 then
        some (Value.obj (renderEntries (GoMap.entries a.subAggregations)))
      else none := by
  unfold MinAggregation.sourceEntries Value.get?
  by_cases h4 : GoMap.len a.subAggregations > 0 <;>
  by_cases h5 : GoMap.len a.meta > 0 <;>
  simp +decide [h4, h5, List.lookup]

theorem get_meta_sourceEntries (a : MinAggregation) :
    (Value.obj a.sourceEntries).get? "meta" =
      if GoMap.len a.meta > 0 then some (Value.obj (GoMap.entries a.meta)) else none := by
  unfold MinAggregation.sourceEntries Value.get?
  by_cases h4 : GoMap.len a.subAggregations > 0 <;>
  by_cases h5 : GoMap.len a.meta > 0 <;>
  simp +decide [h4, h5, List.lookup]

theorem lookup_field_optsEntries (a : MinAggregation) :
    a.optsEntries.lookup "field" =
      if a.field ≠ "" then some (Value.str a.field) else none := by
  unfold MinAggregation.optsEntries
  cases a.script <;>
  by_cases h1 : a.field = "" <;> by_cases h2 : a.format = "" <;>
  cases h3 : a.missing.isNil <;>
  simp +decide [h1, h2, List.lookup]

theorem lookup_format_optsEntries (a : MinAggregation) :
    a.optsEntries.lookup "format" =
      if a.format ≠ "" then some (Value.str a.format) else none := by
  unfold MinAggregation.optsEntries
  cases a.script <;>
  by_cases h1 : a.field = "" <;> by_cases h2 : a.format = "" <;>
  cases h3 : a.missing.isNil <;>
  simp +decide [h1, h2, List.lookup]

theorem lookup_missing_optsEntries (a : MinAggregation) :
    a.optsEntries.lookup "missing" =
      if a.missing.isNil then none else some a.missing := by
  unfold MinAggregation.optsEntries
  cases a.script <;>
  by_cases h1 : a.field = "" <;> by_cases h2 : a.format = "" <;>
  cases h3 : a.missing.isNil <;>
  simp +decide [h1, h2, List.lookup]

theorem lookup_script_optsEntries (a : MinAggregation) :
    a.optsEntries.lookup "script" = a.script.map (fun s => s.Source.1) := by
  unfold MinAggregation.optsEntries
  cases a.script <;>
  by_cases h1 : a.field = "" <;> by_cases h2 : a.format = "" <;>
  cases h3 : a.missing.isNil <;>
  simp +decide [h1, h2, List.lookup]

/-- The value at key `k` of the `"min"` mapping of a successful render. -/
theorem minOption_sourceEntries (a : MinAggregation) (k : String) :
    minOption k (Value.obj a.sourceEntries) = a.optsEntries.lookup k := by
  unfold minOption
  rw [get_min_sourceEntries]
  rfl

/-! ## Chains of setter calls -/

theorem lastArg_init {β : Type} (f : Setter → Option β) (init : Option β)
    (cs : List Setter) :
    lastArg f init cs =
      match lastArg f none cs with
      | some v => some v
      | none => init := by
  induction cs generalizing init with
  | nil => rfl
  | cons c cs ih =>
    simp only [lastArg]
    rw [ih]
    cases hfc : f c with
    | none => rfl
    | some v =>
      simp only
      rw [ih (some v)]
      cases lastArg f none cs <;> rfl

/-- A view of the builder that each call either overwrites (when `f` selects
an argument) or leaves alone is, after a chain of calls, the last selected
argument. -/
theorem calls_view {β : Type} (f : Setter → Option β) (view : MinAggregation → Option β)
    (hstep : ∀ a c a', MinAggregation.call a c = some a' →
      view a' = match f c with
                | some v => some v
                | none => view a)
    (a b : MinAggregation) (cs : List Setter) (h : a.calls cs = some b) :
    view b = lastArg f (view a) cs := by
  induction cs generalizing a with
  | nil =>
    simp only [MinAggregation.calls] at h
    injection h with h
    rw [h]
    rfl
  | cons c cs ih =>
    simp only [MinAggregation.calls] at h
    cases hc : a.call c with
    | none => simp [hc] at h
    | some a' =>
      simp only [hc] at h
      rw [ih a' h, hstep a c a' hc]
      rfl

theorem SubAggregation_eq_some (a a' : MinAggregation) (n : String) (s : Aggregation)
    (h : a.SubAggregation n s = some a') :
    ∃ m, a.subAggregations = some m ∧
      a' = { a with subAggregations := some (m.insert n s) } := by
  unfold MinAggregation.SubAggregation at h
  cases hm : a.subAggregations with
  | none => simp [hm] at h
  | some m =>
    simp only [hm] at h
    injection h with h
    exact ⟨m, rfl, h.symm⟩

theorem calls_missing (a b : MinAggregation) (cs : List Setter) (h : a.calls cs = some b) :
    some b.missing = lastArg Setter.missingArg (some a.missing) cs := by
  refine calls_view Setter.missingArg (fun x => some x.missing) ?_ a b cs h
  intro x c x' hc
  cases c with
  | SubAggregation n s =>
    obtain ⟨m, _, hx⟩ := SubAggregation_eq_some x x' n s hc
    rw [hx]
    rfl
  | _ =>
    simp only [MinAggregation.call] at hc
    injection hc with hc
    rw [← hc]
    rfl

theorem calls_meta (a b : MinAggregation) (cs : List Setter) (h : a.calls cs = some b) :
    some b.meta = lastArg Setter.metaArg (some a.meta) cs := by
  refine calls_view Setter.metaArg (fun x => some x.meta) ?_ a b cs h
  intro x c x' hc
  cases c with
  | SubAggregation n s =>
    obtain ⟨m, _, hx⟩ := SubAggregation_eq_some x x' n s hc
    rw [hx]
    rfl
  | _ =>
    simp only [MinAggregation.call] at hc
    injection hc with hc
    rw [← hc]
    rfl

theorem calls_sub (n : String) (a b : MinAggregation) (cs : List Setter)
    (h : a.calls cs = some b) :
    (GoMap.entries b.subAggregations).lookup n =
      lastArg (Setter.subArg n) ((GoMap.entries a.subAggregations).lookup n) cs := by
  refine calls_view (Setter.subArg n)
    (fun x => (GoMap.entries x.subAggregations).lookup n) ?_ a b cs h
  intro x c x' hc
  cases c with
  | SubAggregation n' s =>
    obtain ⟨m, hm, hx⟩ := SubAggregation_eq_some x x' n' s hc
    rw [hx]
    simp only [hm, GoMap.entries, StrMap.insert, lookup_insertEntry, Setter.subArg]
    by_cases hn : n = n'
    · subst hn
      simp
    · have hn' : ¬ n' = n := fun e => hn e.symm
      simp [hn, hn']
  | _ =>
    simp only [MinAggregation.call] at hc
    injection hc with hc
    rw [← hc]
    rfl

theorem lastArg_ne_none_iff {β : Type} (f : Setter → Option β) (cs : List Setter) :
    lastArg f none cs ≠ none ↔ ∃ c ∈ cs, f c ≠ none := by
  induction cs with
  | nil => simp [lastArg]
  | cons c cs ih =>
    simp only [lastArg]
    rw [lastArg_init]
    cases hl : lastArg f none cs with
    | some v =>
      have h1 : ∃ c ∈ cs, f c ≠ none := ih.1 (by rw [hl]; simp)
      obtain ⟨c', hc', hne⟩ := h1
      simp only [ne_eq, not_false_eq_true, reduceCtorEq, true_iff]
      exact ⟨c', List.mem_cons_of_mem _ hc', hne⟩
    | none =>
      have h1 : ¬ ∃ c ∈ cs, f c ≠ none := fun h => (ih.2 h) hl
      simp only
      constructor
      · intro h
        refine ⟨c, List.mem_cons_self _ _, ?_⟩
        intro hfc
        rw [hfc] at h
        exact h rfl
      · rintro ⟨c', hc', hne⟩
        rcases List.mem_cons.1 hc' with h2 | h2
        · subst h2
          cases hfc : f c' with
          | none => exact absurd hfc hne
          | some v => simp
        · exact absurd ⟨c', h2, hne⟩ h1

theorem lookup_renderEntries (n : String) (l : List (String × Aggregation)) :
    (renderEntries l).lookup n = (l.lookup n).map (fun s => s.Source.1) := by
  induction l with
  | nil => rfl
  | cons hd tl ih =>
    obtain ⟨k, v⟩ := hd
    simp only [renderEntries, List.map_cons, lookup_cons_ite] at ih ⊢
    by_cases h : n = k
    · simp [h]
    · simp only [h, if_false]
      exact ih

theorem lookup_ne_none_iff {α : Type} (n : String) (l : List (String × α)) :
    l.lookup n ≠ none ↔ n ∈ l.map Prod.fst := by
  induction l with
  | nil => simp [List.lookup]
  | cons hd tl ih =>
    obtain ⟨k, v⟩ := hd
    simp only [lookup_cons_ite, List.map_cons, List.mem_cons]
    by_cases h : n = k
    · simp [h]
    · simp only [h, if_false, false_or]
      exact ih

theorem len_pos_iff {α : Type} (m : GoMap α) :
    GoMap.len m > 0 ↔ ∃ n, (GoMap.entries m).lookup n ≠ none := by
  unfold GoMap.len
  constructor
  · intro h
    obtain ⟨p, hp⟩ := List.exists_mem_of_length_pos h
    exact ⟨p.1, (lookup_ne_none_iff _ _).2 (List.mem_map.2 ⟨p, hp, rfl⟩)⟩
  · rintro ⟨n, hn⟩
    obtain ⟨p, hp, _⟩ := List.mem_map.1 ((lookup_ne_none_iff _ _).1 hn)
    exact List.length_pos_of_mem hp

theorem insertEntry_insertEntry {α : Type} (n : String) (v₁ v₂ : α)
    (l : List (String × α)) :
    insertEntry n v₂ (insertEntry n v₁ l) = insertEntry n v₂ l := by
  have hirr : ¬ keyCode n < keyCode n := lt_irrefl _
  induction l with
  | nil => simp [insertEntry, hirr]
  | cons hd tl ih =>
    obtain ⟨k, v⟩ := hd
    by_cases h1 : keyCode n < keyCode k
    · simp [insertEntry, h1, hirr]
    · by_cases h2 : n = k
      · subst h2
        simp [insertEntry, hirr]
      · simp [insertEntry, h1, h2, ih]

/-- A property of the builder kept by every admissible call is kept by a
chain of admissible calls. -/
theorem calls_invariant (P : MinAggregation → Prop) (ok : Setter → Prop)
    (hstep : ∀ a c a', ok c → P a → MinAggregation.call a c = some a' → P a')
    (a b : MinAggregation) (cs : List Setter) (hok : ∀ c ∈ cs, ok c) (ha : P a)
    (h : a.calls cs = some b) : P b := by
  induction cs generalizing a with
  | nil =>
    simp only [MinAggregation.calls] at h
    injection h with h
    rw [← h]
    exact ha
  | cons c cs ih =>
    simp only [MinAggregation.calls] at h
    cases hc : a.call c with
    | none => simp [hc] at h
    | some a' =>
      simp only [hc] at h
      exact ih a' (fun c' hc' => hok c' (List.mem_cons_of_mem _ hc'))
        (hstep a c a' (hok c (List.mem_cons_self _ _)) ha hc) h

/-! ## Claims -/

/-- C1: the builder returned by `NewMinAggregation`, with no setter called,
renders successfully to exactly `{"min": {}}`; the document has no
`"aggregations"` key and no `"meta"` key. -/
theorem C1_new_renders_empty_min (sched : Schedule) :
    NewMinAggregation.Source sched = (Value.obj [("min", Value.obj [])], none) ∧
    (NewMinAggregation.Source sched).1.get? "aggregations" = none ∧
    (NewMinAggregation.Source sched).1.get? "meta" = none := by
  have h : NewMinAggregation.Source sched = (Value.obj [("min", Value.obj [])], none) := by
    cases sched <;> rfl
  rw [h]
  exact ⟨rfl, rfl, rfl⟩

/-- C2: for every non-empty string `f`, `NewMinAggregation().Field(f)`
renders successfully to exactly `{"min": {"field": f}}`. -/
theorem C2_field_renders (f : String) (hf : f ≠ "") (sched : Schedule) :
    (NewMinAggregation.Field f).Source sched =
      (Value.obj [("min", Value.obj [("field", Value.str f)])], none) := by
  cases sched <;>
  simp [MinAggregation.Source, NewMinAggregation, MinAggregation.Field, scriptSource,
    StrMap.insert, StrMap.empty, insertEntry, GoMap.len, GoMap.entries, Value.isNil, hf]

theorem C2_field_renders_witness :
    "price" ≠ "" ∧ (NewMinAggregation.Field "price").Source [] =
      (Value.obj [("min", Value.obj [("field", Value.str "price")])], none) :=
  ⟨by decide, C2_field_renders "price" (by decide) []⟩

/-- C5: `Source` returns an error exactly when the script is set and its
render fails, or some registered sub-aggregation's render fails; when neither
happens `Source` succeeds, whatever `field`, `format`, `missing` and `meta`
are. -/
theorem C5_source_fails_iff_component_fails (a : MinAggregation) (sched : Schedule) :
    ((a.Source sched).2 ≠ none ↔ a.scriptFails ∨ a.subAggregationFails) ∧
    (∀ (field format : String) (missing : Value) (metaData : GoMap Value),
      ¬ a.scriptFails → ¬ a.subAggregationFails →
      (((((a.Field field).Format format).Missing missing).Meta metaData).Source sched).2
        = none) := by
  refine ⟨Source_error_iff a sched, ?_⟩
  intro field format missing metaData h1 h2
  have h := Source_ok ((((a.Field field).Format format).Missing missing).Meta metaData)
    sched h1 h2
  rw [h]

/-- C6: when a sub-aggregation's render fails while the script is unset or
renders successfully, `Source` returns the nil value together with the very
error returned by a failing sub-aggregation. -/
theorem C6_sub_error_propagates (a : MinAggregation) (sched : Schedule)
    (hscript : ¬ a.scriptFails) (hsub : a.subAggregationFails) :
    ∃ p ∈ GoMap.entries a.subAggregations, ∃ e,
      p.2.Source.2 = some e ∧ a.Source sched = (Value.null, some e) :=
  Source_of_sub_error a sched hscript hsub

theorem C6_sub_error_propagates_witness :
    ¬ oneFailing.scriptFails ∧ oneFailing.subAggregationFails ∧
    ∃ p ∈ GoMap.entries oneFailing.subAggregations, ∃ e,
      p.2.Source.2 = some e ∧ oneFailing.Source [1] = (Value.null, some e) :=
  have h1 : ¬ oneFailing.scriptFails := by
    rintro ⟨s, hs, _⟩
    cases hs
  have h2 : oneFailing.subAggregationFails :=
    ⟨("b", failingAggregation "boom"),
      (show ("b", failingAggregation "boom") ∈
          [("a", nestedAggregation), ("b", failingAggregation "boom")] from
        List.mem_cons_of_mem _ (List.mem_cons_self _ _)),
      by simp [failingAggregation]⟩
  ⟨h1, h2, C6_sub_error_propagates oneFailing [1] h1 h2⟩

/-- C3 as stated fails: after the single call `Missing(nil)` the render is
`{"min": {}}`, without the key `"missing"`, although `Missing` was called. -/
theorem C3_missing_nil_counterexample :
    ¬ (∀ (cs : List Setter) (b : MinAggregation) (sched : Schedule) (out : Value),
        NewMinAggregation.calls cs = some b → b.Source sched = (out, none) →
        (minOption "missing" out ≠ none ↔ ∃ v, Setter.Missing v ∈ cs)) := by
  intro h
  have h1 := h [Setter.Missing Value.null] (NewMinAggregation.Missing Value.null) []
    (Value.obj [("min", Value.obj [])]) rfl rfl
  exact h1.2 ⟨Value.null, List.mem_cons_self _ _⟩ rfl

/-- C3 (amended): for every builder obtained from `NewMinAggregation` by a
chain of setter calls and every successful render, the `"min"` mapping
contains the key `"missing"` if and only if `Missing` was called and the value
passed to the last `Missing` call is not nil; when the key is present its
value is the value passed to the last `Missing` call. -/
theorem C3_missing_iff_last_call_nonnil (cs : List Setter) (b : MinAggregation)
    (sched : Schedule) (out : Value)
    (hb : NewMinAggregation.calls cs = some b) (hout : b.Source sched = (out, none)) :
    (minOption "missing" out ≠ none ↔
      ∃ v, lastArg Setter.missingArg none cs = some v ∧ v.isNil = false) ∧
    (∀ v, minOption "missing" out = some v →
      lastArg Setter.missingArg none cs = some v) := by
  obtain ⟨_, _, hdoc⟩ := Source_eq_ok b sched out hout
  have hm := calls_missing _ _ cs hb
  rw [lastArg_init] at hm
  rw [hdoc, minOption_sourceEntries, lookup_missing_optsEntries]
  cases hlast : lastArg Setter.missingArg none cs with
  | none =>
    rw [hlast] at hm
    simp only [NewMinAggregation] at hm
    injection hm with hm
    simp [hm, Value.isNil]
  | some v =>
    rw [hlast] at hm
    simp only at hm
    injection hm with hm
    subst hm
    cases hnil : b.missing.isNil <;> simp [hnil]

theorem C3_missing_iff_last_call_nonnil_witness :
    NewMinAggregation.calls [Setter.Missing (Value.num 0), Setter.Field "price"] =
      some ((NewMinAggregation.Missing (Value.num 0)).Field "price") ∧
    (minOption "missing"
        (Value.obj [("min", Value.obj [("field", Value.str "price"),
          ("missing", Value.num 0)])]) ≠ none ↔
      ∃ v, lastArg Setter.missingArg none
          [Setter.Missing (Value.num 0), Setter.Field "price"] = some v ∧
        v.isNil = false) :=
  ⟨rfl, (C3_missing_iff_last_call_nonnil
    [Setter.Missing (Value.num 0), Setter.Field "price"]
    ((NewMinAggregation.Missing (Value.num 0)).Field "price") []
    (Value.obj [("min", Value.obj [("field", Value.str "price"),
      ("missing", Value.num 0)])]) rfl rfl).1⟩

/-- C7 as stated fails: Go does not fix the order in which `range` visits a
map, so with two sub-aggregations failing with different errors two calls of
`Source` on the unchanged builder can return different errors. -/
theorem C7_two_errors_counterexample :
    NewMinAggregation.calls
      [Setter.SubAggregation "a" (failingAggregation "first"),
       Setter.SubAggregation "b" (failingAggregation "second")] = some twoFailing ∧
    twoFailing.Source [0] = (Value.null, some ⟨"first"⟩) ∧
    twoFailing.Source [1] = (Value.null, some ⟨"second"⟩) ∧
    twoFailing.Source [0] ≠ twoFailing.Source [1] := by
  have h0 : twoFailing.Source [0] = (Value.null, some ⟨"first"⟩) := rfl
  have h1 : twoFailing.Source [1] = (Value.null, some ⟨"second"⟩) := rfl
  refine ⟨rfl, h0, h1, ?_⟩
  rw [h0, h1]
  intro h
  have h2 := (Prod.mk.inj h).2
  injection h2 with h2
  injection h2 with h2
  exact absurd h2 (by decide)

/-- For sub-aggregations with one render outcome, two calls of `Source` return
equal results unless the script renders and two sub-aggregations fail with
different errors; one call succeeds exactly when the other does, and a
successful result does not depend on the order of the visit. -/
theorem Source_repeatable (a : MinAggregation) (s₁ s₂ : Schedule) :
    ((¬ a.scriptFails →
        ∀ p ∈ GoMap.entries a.subAggregations, ∀ q ∈ GoMap.entries a.subAggregations,
          ∀ e₁ e₂, p.2.Source.2 = some e₁ → q.2.Source.2 = some e₂ → e₁ = e₂) →
      a.Source s₁ = a.Source s₂) ∧
    ((a.Source s₁).2 = none ↔ (a.Source s₂).2 = none) ∧
    ((a.Source s₁).2 = none → a.Source s₁ = a.Source s₂) := by
  have hiff : (a.Source s₁).2 = none ↔ (a.Source s₂).2 = none := by
    rw [← not_iff_not]
    exact (Source_error_iff a s₁).trans (Source_error_iff a s₂).symm
  have hok : (a.Source s₁).2 = none → a.Source s₁ = a.Source s₂ := by
    intro h
    have h1 : ¬ (a.scriptFails ∨ a.subAggregationFails) := by
      rw [← Source_error_iff a s₁]
      exact fun hne => hne h
    rw [not_or] at h1
    rw [Source_ok a s₁ h1.1 h1.2, Source_ok a s₂ h1.1 h1.2]
  refine ⟨?_, hiff, hok⟩
  intro hsame
  by_cases hscript : a.scriptFails
  · obtain ⟨s, hs, hne⟩ := hscript
    obtain ⟨e, he⟩ := Option.ne_none_iff_exists'.1 hne
    rw [Source_of_script_error a s₁ s e hs he, Source_of_script_error a s₂ s e hs he]
  · by_cases hsub : a.subAggregationFails
    · obtain ⟨p, hp, e₁, hpe, h1⟩ := Source_of_sub_error a s₁ hscript hsub
      obtain ⟨q, hq, e₂, hqe, h2⟩ := Source_of_sub_error a s₂ hscript hsub
      rw [h1, h2, hsame hscript p hp q hq e₁ e₂ hpe hqe]
    · rw [Source_ok a s₁ hscript hsub, Source_ok a s₂ hscript hsub]

/-- C10: for every builder obtained from `NewMinAggregation` by a chain of
setter calls and every successful render, the document has a top-level
`"meta"` key if and only if the mapping last passed to `Meta` is non-empty,
and then the value under `"meta"` is that mapping itself. -/
theorem C10_meta_iff_last_call_nonempty (cs : List Setter) (b : MinAggregation)
    (sched : Schedule) (out : Value)
    (hb : NewMinAggregation.calls cs = some b) (hout : b.Source sched = (out, none)) :
    (out.get? "meta" ≠ none ↔
      ∃ m, lastArg Setter.metaArg none cs = some m ∧ GoMap.len m > 0) ∧
    (∀ m, lastArg Setter.metaArg none cs = some m → GoMap.len m > 0 →
      out.get? "meta" = some (Value.obj (GoMap.entries m))) := by
  obtain ⟨_, _, hdoc⟩ := Source_eq_ok b sched out hout
  have hm := calls_meta _ _ cs hb
  rw [lastArg_init] at hm
  rw [hdoc, get_meta_sourceEntries]
  cases hlast : lastArg Setter.metaArg none cs with
  | none =>
    rw [hlast] at hm
    simp only [NewMinAggregation] at hm
    injection hm with hm
    simp [hm, GoMap.len, GoMap.entries]
  | some m =>
    rw [hlast] at hm
    simp only at hm
    injection hm with hm
    subst hm
    by_cases hlen : GoMap.len b.meta > 0
    · simp [hlen]
    · have hzero : GoMap.len b.meta = 0 := by omega
      simp [hzero]

theorem C10_meta_iff_last_call_nonempty_witness :
    (Value.obj [("meta", Value.obj [("owner", Value.str "team-a")]),
        ("min", Value.obj [])]).get? "meta" =
      some (Value.obj (GoMap.entries
        (some (StrMap.empty.insert "owner" (Value.str "team-a"))))) :=
  (C10_meta_iff_last_call_nonempty
    [Setter.Meta (some (StrMap.empty.insert "owner" (Value.str "team-a")))]
    (NewMinAggregation.Meta (some (StrMap.empty.insert "owner" (Value.str "team-a"))))
    [] (Value.obj [("meta", Value.obj [("owner", Value.str "team-a")]),
        ("min", Value.obj [])]) rfl rfl).2
    (some (StrMap.empty.insert "owner" (Value.str "team-a"))) rfl (by decide)

/-- C8: for every builder obtained from `NewMinAggregation` by a chain of
setter calls whose script (if set) and sub-aggregations all render, `Source`
succeeds; the document has a top-level `"aggregations"` key if and only if
`SubAggregation` was called at least once; the value under that key is a
mapping whose keys are exactly the registered names, the value at a name being
the render of the sub-aggregation last registered under it; and the `"min"`
entry is the one of the same builder without sub-aggregations. -/
theorem C8_aggregations_of_sub_aggregations (cs : List Setter) (b : MinAggregation)
    (sched : Schedule) (hb : NewMinAggregation.calls cs = some b)
    (hscript : ¬ b.scriptFails) (hsub : ¬ b.subAggregationFails) :
    ∃ out, b.Source sched = (out, none) ∧
      (out.get? "aggregations" ≠ none ↔ ∃ n s, Setter.SubAggregation n s ∈ cs) ∧
      (∀ aggs, out.get? "aggregations" = some aggs →
        ∀ n, (aggs.get? n = (lastArg (Setter.subArg n) none cs).map (fun s => s.Source.1)) ∧
          (aggs.get? n ≠ none ↔ ∃ s, Setter.SubAggregation n s ∈ cs)) ∧
      out.get? "min" =
        (MinAggregation.Source { b with subAggregations := some StrMap.empty } sched).1.get?
          "min" := by
  have hlook : ∀ n, (GoMap.entries b.subAggregations).lookup n =
      lastArg (Setter.subArg n) none cs := fun n => calls_sub n _ _ cs hb
  have hreg : ∀ n, lastArg (Setter.subArg n) none cs ≠ none ↔
      ∃ s, Setter.SubAggregation n s ∈ cs := by
    intro n
    rw [lastArg_ne_none_iff]
    constructor
    · rintro ⟨c, hc, hne⟩
      cases c with
      | SubAggregation n' s =>
        by_cases hn : n' = n
        · subst hn
          exact ⟨s, hc⟩
        · simp [Setter.subArg, hn] at hne
      | _ => simp [Setter.subArg] at hne
    · rintro ⟨s, hs⟩
      exact ⟨_, hs, by simp [Setter.subArg]⟩
  have hlen : GoMap.len b.subAggregations > 0 ↔ ∃ n s, Setter.SubAggregation n s ∈ cs := by
    rw [len_pos_iff]
    constructor
    · rintro ⟨n, hn⟩
      rw [hlook n] at hn
      exact ⟨n, (hreg n).1 hn⟩
    · rintro ⟨n, hn⟩
      refine ⟨n, ?_⟩
      rw [hlook n]
      exact (hreg n).2 hn
  have hscript' : ¬ MinAggregation.scriptFails
      { b with subAggregations := some StrMap.empty } := hscript
  have hsub' : ¬ MinAggregation.subAggregationFails
      { b with subAggregations := some StrMap.empty } := by
    rintro ⟨p, hp, _⟩
    cases hp
  refine ⟨Value.obj b.sourceEntries, Source_ok b sched hscript hsub, ?_, ?_, ?_⟩
  · rw [get_aggregations_sourceEntries, ← hlen]
    by_cases h : GoMap.len b.subAggregations > 0 <;> simp [h]
  · intro aggs haggs n
    rw [get_aggregations_sourceEntries] at haggs
    by_cases h : GoMap.len b.subAggregations > 0
    · simp only [h, if_true] at haggs
      injection haggs with haggs
      subst haggs
      have hval : (Value.obj (renderEntries (GoMap.entries b.subAggregations))).get? n =
          (lastArg (Setter.subArg n) none cs).map (fun s => s.Source.1) := by
        simp only [Value.get?]
        rw [lookup_renderEntries, hlook n]
      refine ⟨hval, ?_⟩
      rw [hval, ← hreg n]
      cases lastArg (Setter.subArg n) none cs <;> simp
    · simp [h] at haggs
  · rw [Source_ok _ sched hscript' hsub', get_min_sourceEntries, get_min_sourceEntries]
    rfl

theorem C8_aggregations_of_sub_aggregations_witness :
    ∃ out, (NewMinAggregation.calls [Setter.SubAggregation "nested" nestedAggregation]
        = some { NewMinAggregation with
            subAggregations := some (StrMap.empty.insert "nested" nestedAggregation) }) ∧
      MinAggregation.Source { NewMinAggregation with
          subAggregations := some (StrMap.empty.insert "nested" nestedAggregation) } []
        = (out, none) ∧
      out.get? "aggregations" ≠ none ∧
      (∀ aggs, out.get? "aggregations" = some aggs →
        aggs.get? "nested" = some (Value.obj [("x", Value.num 1)])) := by
  have h1 : ¬ MinAggregation.scriptFails { NewMinAggregation with
      subAggregations := some (StrMap.empty.insert "nested" nestedAggregation) } := by
    rintro ⟨s, hs, _⟩
    cases hs
  have h2 : ¬ MinAggregation.subAggregationFails { NewMinAggregation with
      subAggregations := some (StrMap.empty.insert "nested" nestedAggregation) } := by
    rintro ⟨p, hp, hne⟩
    have hp' : p ∈ [("nested", nestedAggregation)] := hp
    rw [List.mem_singleton] at hp'
    subst hp'
    exact hne rfl
  obtain ⟨out, ho, hk, hv, _⟩ := C8_aggregations_of_sub_aggregations
    [Setter.SubAggregation "nested" nestedAggregation]
    { NewMinAggregation with
      subAggregations := some (StrMap.empty.insert "nested" nestedAggregation) }
    [] rfl h1 h2
  exact ⟨out, rfl, ho, hk.2 ⟨"nested", nestedAggregation, List.mem_cons_self _ _⟩,
    fun aggs haggs => (hv aggs haggs "nested").1⟩

/-- C9: for every name `n` (the empty name included) and sub-aggregations
`s₁`, `s₂`, on a builder whose sub-aggregation map is made, `SubAggregation(n,
s₁)` followed by `SubAggregation(n, s₂)` is accepted and leaves the builder
that `SubAggregation(n, s₂)` alone gives: the map has a single entry for `n`,
holding `s₂`; the render does not depend on `s₁`, and when the script, the
other sub-aggregations and `s₂` render, `Source` succeeds with the render of
`s₂` at `n` in the `"aggregations"` mapping. -/
theorem C9_same_name_overwrites (b : MinAggregation) (m : StrMap Aggregation)
    (n : String) (s₁ s₂ : Aggregation) (hm : b.subAggregations = some m) :
    ∃ b₁ b₂, b.SubAggregation n s₁ = some b₁ ∧ b₁.SubAggregation n s₂ = some b₂ ∧
      b.SubAggregation n s₂ = some b₂ ∧
      (GoMap.entries b₂.subAggregations).lookup n = some s₂ ∧
      ((GoMap.entries b₂.subAggregations).map Prod.fst).count n = 1 ∧
      (∀ sched, ¬ b.scriptFails →
        (∀ p ∈ GoMap.entries b.subAggregations, p.1 ≠ n → p.2.Source.2 = none) →
        s₂.Source.2 = none →
        ∃ out aggs, b₂.Source sched = (out, none) ∧
          out.get? "aggregations" = some aggs ∧ aggs.get? n = some s₂.Source.1) := by
  have hins : (m.insert n s₁).insert n s₂ = m.insert n s₂ := by
    simp only [StrMap.insert, insertEntry_insertEntry]
  have hlook : (GoMap.entries (some (m.insert n s₂))).lookup n = some s₂ := by
    simp [GoMap.entries, StrMap.insert, lookup_insertEntry]
  have hmem : n ∈ (GoMap.entries (some (m.insert n s₂))).map Prod.fst :=
    (lookup_ne_none_iff _ _).1 (by rw [hlook]; simp)
  refine ⟨{ b with subAggregations := some (m.insert n s₁) },
    { b with subAggregations := some (m.insert n s₂) }, ?_, ?_, ?_, hlook, ?_, ?_⟩
  · simp only [MinAggregation.SubAggregation, hm]
  · simp only [MinAggregation.SubAggregation, hins]
  · simp only [MinAggregation.SubAggregation, hm]
  · exact List.count_eq_one_of_mem
      (keysSorted_nodup _ (GoMap.entries_sorted (some (m.insert n s₂)))) hmem
  · intro sched hscript hothers hs₂
    have hscript' : ¬ MinAggregation.scriptFails
        { b with subAggregations := some (m.insert n s₂) } := hscript
    have hsub' : ¬ MinAggregation.subAggregationFails
        { b with subAggregations := some (m.insert n s₂) } := by
      rw [not_subAggregationFails_iff]
      intro p hp
      rcases (mem_insertEntry n s₂ m.entries m.sorted p).1 hp with h | ⟨h, hne⟩
      · rw [h]
        exact hs₂
      · refine hothers p ?_ hne
        rw [hm]
        exact h
    have hlen : GoMap.len (some (m.insert n s₂)) > 0 :=
      (len_pos_iff _).2 ⟨n, by rw [hlook]; simp⟩
    refine ⟨_, Value.obj (renderEntries (GoMap.entries (some (m.insert n s₂)))),
      Source_ok _ sched hscript' hsub', ?_, ?_⟩
    · rw [get_aggregations_sourceEntries]
      simp only [hlen, if_true]
    · simp only [Value.get?]
      rw [lookup_renderEntries, hlook]
      rfl

theorem C9_same_name_overwrites_witness :
    ∃ b₁ b₂, NewMinAggregation.SubAggregation "" (failingAggregation "boom") = some b₁ ∧
      b₁.SubAggregation "" nestedAggregation = some b₂ ∧
      NewMinAggregation.SubAggregation "" nestedAggregation = some b₂ ∧
      (GoMap.entries b₂.subAggregations).lookup "" = some nestedAggregation ∧
      ((GoMap.entries b₂.subAggregations).map Prod.fst).count "" = 1 ∧
      (∀ sched, ¬ NewMinAggregation.scriptFails →
        (∀ p ∈ GoMap.entries NewMinAggregation.subAggregations,
          p.1 ≠ "" → p.2.Source.2 = none) →
        nestedAggregation.Source.2 = none →
        ∃ out aggs, b₂.Source sched = (out, none) ∧
          out.get? "aggregations" = some aggs ∧
          aggs.get? "" = some nestedAggregation.Source.1) :=
  C9_same_name_overwrites NewMinAggregation StrMap.empty ""
    (failingAggregation "boom") nestedAggregation rfl

/-- C4 as stated fails: after `Field("price")` the render has the key
`"field"`, and the later call `Field("")` gives a builder whose render lacks
it. -/
theorem C4_field_unset_counterexample :
    ¬ (∀ (b : MinAggregation) (cs : List Setter) (b' : MinAggregation)
        (s s' : Schedule) (out out' : Value),
        b.Source s = (out, none) → b.calls cs = some b' → b'.Source s' = (out', none) →
        ∀ k, minOption k out ≠ none → minOption k out' ≠ none) := by
  intro h
  have h1 := h (NewMinAggregation.Field "price") [Setter.Field ""]
    ((NewMinAggregation.Field "price").Field "") [] []
    (Value.obj [("min", Value.obj [("field", Value.str "price")])])
    (Value.obj [("min", Value.obj [])]) rfl rfl rfl "field"
  have h2 : minOption "field"
      (Value.obj [("min", Value.obj [("field", Value.str "price")])]) ≠ none := by
    intro e
    have e' : some (Value.str "price") = none := e
    cases e'
  exact h1 h2 rfl

theorem field_kept (b b' : MinAggregation) (cs : List Setter)
    (h : b.calls cs = some b') (hb : b.field ≠ "")
    (hcs : ∀ f, Setter.Field f ∈ cs → f ≠ "") : b'.field ≠ "" := by
  refine calls_invariant (fun a => a.field ≠ "") (fun c => ∀ f, c = Setter.Field f → f ≠ "")
    ?_ b b' cs (fun c hc f hf => hcs f (hf ▸ hc)) hb h
  intro a c a' hok ha hc
  cases c with
  | SubAggregation n s =>
    obtain ⟨m, _, hx⟩ := SubAggregation_eq_some a a' n s hc
    rw [hx]
    exact ha
  | Field f =>
    simp only [MinAggregation.call] at hc
    injection hc with hc
    rw [← hc]
    exact hok f rfl
  | _ =>
    simp only [MinAggregation.call] at hc
    injection hc with hc
    rw [← hc]
    exact ha

theorem format_kept (b b' : MinAggregation) (cs : List Setter)
    (h : b.calls cs = some b') (hb : b.format ≠ "")
    (hcs : ∀ f, Setter.Format f ∈ cs → f ≠ "") : b'.format ≠ "" := by
  refine calls_invariant (fun a => a.format ≠ "")
    (fun c => ∀ f, c = Setter.Format f → f ≠ "")
    ?_ b b' cs (fun c hc f hf => hcs f (hf ▸ hc)) hb h
  intro a c a' hok ha hc
  cases c with
  | SubAggregation n s =>
    obtain ⟨m, _, hx⟩ := SubAggregation_eq_some a a' n s hc
    rw [hx]
    exact ha
  | Format f =>
    simp only [MinAggregation.call] at hc
    injection hc with hc
    rw [← hc]
    exact hok f rfl
  | _ =>
    simp only [MinAggregation.call] at hc
    injection hc with hc
    rw [← hc]
    exact ha

theorem script_kept (b b' : MinAggregation) (cs : List Setter)
    (h : b.calls cs = some b') (hb : b.script ≠ none)
    (hcs : Setter.Script none ∉ cs) : b'.script ≠ none := by
  refine calls_invariant (fun a => a.script ≠ none) (fun c => c ≠ Setter.Script none)
    ?_ b b' cs (fun c hc e => hcs (e ▸ hc)) hb h
  intro a c a' hok ha hc
  cases c with
  | SubAggregation n s =>
    obtain ⟨m, _, hx⟩ := SubAggregation_eq_some a a' n s hc
    rw [hx]
    exact ha
  | Script sc =>
    simp only [MinAggregation.call] at hc
    injection hc with hc
    rw [← hc]
    intro e
    apply hok
    have e' : sc = none := e
    rw [e']
  | _ =>
    simp only [MinAggregation.call] at hc
    injection hc with hc
    rw [← hc]
    exact ha

theorem missing_kept (b b' : MinAggregation) (cs : List Setter)
    (h : b.calls cs = some b') (hb : b.missing.isNil = false)
    (hcs : ∀ v, Setter.Missing v ∈ cs → v.isNil = false) : b'.missing.isNil = false := by
  refine calls_invariant (fun a => a.missing.isNil = false)
    (fun c => ∀ v, c = Setter.Missing v → v.isNil = false)
    ?_ b b' cs (fun c hc v hv => hcs v (hv ▸ hc)) hb h
  intro a c a' hok ha hc
  cases c with
  | SubAggregation n s =>
    obtain ⟨m, _, hx⟩ := SubAggregation_eq_some a a' n s hc
    rw [hx]
    exact ha
  | Missing v =>
    simp only [MinAggregation.call] at hc
    injection hc with hc
    rw [← hc]
    exact hok v rfl
  | _ =>
    simp only [MinAggregation.call] at hc
    injection hc with hc
    rw [← hc]
    exact ha

theorem meta_kept (b b' : MinAggregation) (cs : List Setter)
    (h : b.calls cs = some b') (hb : GoMap.len b.meta > 0)
    (hcs : ∀ m, Setter.Meta m ∈ cs → GoMap.len m > 0) : GoMap.len b'.meta > 0 := by
  refine calls_invariant (fun a => GoMap.len a.meta > 0)
    (fun c => ∀ m, c = Setter.Meta m → GoMap.len m > 0)
    ?_ b b' cs (fun c hc m hm => hcs m (hm ▸ hc)) hb h
  intro a c a' hok ha hc
  cases c with
  | SubAggregation n s =>
    obtain ⟨m, _, hx⟩ := SubAggregation_eq_some a a' n s hc
    rw [hx]
    exact ha
  | Meta m =>
    simp only [MinAggregation.call] at hc
    injection hc with hc
    rw [← hc]
    exact hok m rfl
  | _ =>
    simp only [MinAggregation.call] at hc
    injection hc with hc
    rw [← hc]
    exact ha

theorem sub_entry_kept (n : String) (b b' : MinAggregation) (cs : List Setter)
    (h : b.calls cs = some b')
    (hb : (GoMap.entries b.subAggregations).lookup n ≠ none) :
    (GoMap.entries b'.subAggregations).lookup n ≠ none := by
  refine calls_invariant (fun a => (GoMap.entries a.subAggregations).lookup n ≠ none)
    (fun _ => True) ?_ b b' cs (fun _ _ => trivial) hb h
  intro a c a' _ ha hc
  cases c with
  | SubAggregation n' s =>
    obtain ⟨m, hm, hx⟩ := SubAggregation_eq_some a a' n' s hc
    rw [hx]
    simp only [hm, GoMap.entries] at ha
    simp only [GoMap.entries, StrMap.insert, lookup_insertEntry]
    by_cases hn : n = n'
    · simp [hn]
    · simp only [hn, if_false]
      exact ha
  | _ =>
    simp only [MinAggregation.call] at hc
    injection hc with hc
    rw [← hc]
    exact ha

/-- C4 (amended): a key of the rendered output can disappear only when the
setter of its attribute is called again with the zero value.  For a builder
that renders successfully and later setter calls after which the builder
still renders successfully: `"field"` (resp. `"format"`) stays when no later
`Field` (resp. `Format`) call passes the empty string, `"script"` stays when
no later call is `Script(nil)`, `"missing"` stays when no later `Missing` call
passes nil, `"meta"` stays when no later `Meta` call passes a nil or empty
mapping; the `"aggregations"` key and every entry of its mapping stay
whatever the later calls are. -/
theorem C4_keys_persist (b b' : MinAggregation) (cs : List Setter)
    (s s' : Schedule) (out out' : Value)
    (h₁ : b.Source s = (out, none)) (h₂ : b.calls cs = some b')
    (h₃ : b'.Source s' = (out', none)) :
    (minOption "field" out ≠ none → (∀ f, Setter.Field f ∈ cs → f ≠ "") →
      minOption "field" out' ≠ none) ∧
    (minOption "script" out ≠ none → Setter.Script none ∉ cs →
      minOption "script" out' ≠ none) ∧
    (minOption "format" out ≠ none → (∀ f, Setter.Format f ∈ cs → f ≠ "") →
      minOption "format" out' ≠ none) ∧
    (minOption "missing" out ≠ none → (∀ v, Setter.Missing v ∈ cs → v.isNil = false) →
      minOption "missing" out' ≠ none) ∧
    (out.get? "meta" ≠ none → (∀ m, Setter.Meta m ∈ cs → GoMap.len m > 0) →
      out'.get? "meta" ≠ none) ∧
    (out.get? "aggregations" ≠ none → out'.get? "aggregations" ≠ none) ∧
    (∀ n aggs, out.get? "aggregations" = some aggs → aggs.get? n ≠ none →
      ∃ aggs', out'.get? "aggregations" = some aggs' ∧ aggs'.get? n ≠ none) := by
  obtain ⟨_, _, hout⟩ := Source_eq_ok b s out h₁
  obtain ⟨_, _, hout'⟩ := Source_eq_ok b' s' out' h₃
  subst hout
  subst hout'
  simp only [minOption_sourceEntries, lookup_field_optsEntries, lookup_script_optsEntries,
    lookup_format_optsEntries, lookup_missing_optsEntries, get_meta_sourceEntries,
    get_aggregations_sourceEntries]
  have hentry : ∀ n, (GoMap.entries b.subAggregations).lookup n ≠ none →
      (GoMap.entries b'.subAggregations).lookup n ≠ none :=
    fun n hn => sub_entry_kept n b b' cs h₂ hn
  have hlen : GoMap.len b.subAggregations > 0 → GoMap.len b'.subAggregations > 0 := by
    intro h
    obtain ⟨n, hn⟩ := (len_pos_iff _).1 h
    exact (len_pos_iff _).2 ⟨n, hentry n hn⟩
  refine ⟨?_, ?_, ?_, ?_, ?_, ?_, ?_⟩
  · intro h hcs
    have hb : b.field ≠ "" := by
      intro e
      simp [e] at h
    simp [field_kept b b' cs h₂ hb hcs]
  · intro h hcs
    have hb : b.script ≠ none := by
      intro e
      simp [e] at h
    have hb' := script_kept b b' cs h₂ hb hcs
    cases hsc : b'.script with
    | none => exact absurd hsc hb'
    | some sc => simp
  · intro h hcs
    have hb : b.format ≠ "" := by
      intro e
      simp [e] at h
    simp [format_kept b b' cs h₂ hb hcs]
  · intro h hcs
    have hb : b.missing.isNil = false := by
      cases hnil : b.missing.isNil with
      | false => rfl
      | true => simp [hnil] at h
    simp [missing_kept b b' cs h₂ hb hcs]
  · intro h hcs
    have hb : GoMap.len b.meta > 0 := by
      by_contra hcon
      simp [hcon] at h
    simp [meta_kept b b' cs h₂ hb hcs]
  · intro h
    have hb : GoMap.len b.subAggregations > 0 := by
      by_contra hcon
      simp [hcon] at h
    simp [hlen hb]
  · intro n aggs haggs hn
    have hb : GoMap.len b.subAggregations > 0 := by
      by_contra hcon
      simp [hcon] at haggs
    simp only [hb, if_true] at haggs
    injection haggs with haggs
    subst haggs
    simp only [Value.get?, lookup_renderEntries] at hn
    have hn' : (GoMap.entries b.subAggregations).lookup n ≠ none := by
      intro e
      rw [e] at hn
      exact hn rfl
    refine ⟨Value.obj (renderEntries (GoMap.entries b'.subAggregations)), ?_, ?_⟩
    · simp only [hlen hb, if_true]
    · simp only [Value.get?, lookup_renderEntries]
      have h' := hentry n hn'
      cases hl : (GoMap.entries b'.subAggregations).lookup n with
      | none => exact absurd hl h'
      | some v => simp

theorem C4_keys_persist_witness :
    minOption "field"
      (Value.obj [("min", Value.obj [("field", Value.str "cost"),
        ("format", Value.str "0.00")])]) ≠ none :=
  (C4_keys_persist (NewMinAggregation.Field "price")
    (((NewMinAggregation.Field "price").Format "0.00").Field "cost")
    [Setter.Format "0.00", Setter.Field "cost"] [] []
    (Value.obj [("min", Value.obj [("field", Value.str "price")])])
    (Value.obj [("min", Value.obj [("field", Value.str "cost"),
      ("format", Value.str "0.00")])]) rfl rfl rfl).1
    (by
      intro e
      have e' : some (Value.str "price") = none := e
      cases e')
    (by
      intro f hf
      have hf' : f = "cost" := by
        simpa using hf
      rw [hf']
      decide)

/-! ## Claims on the keys of the document -/

theorem keys_sourceEntries (a : MinAggregation) :
    a.sourceEntries.map Prod.fst =
      (if GoMap.len a.subAggregations > 0 then ["aggregations"] else []) ++
      (if GoMap.len a.meta > 0 then ["meta"] else []) ++ ["min"] := by
  unfold MinAggregation.sourceEntries
  by_cases h4 : GoMap.len a.subAggregations > 0 <;>
  by_cases h5 : GoMap.len a.meta > 0 <;>
  simp [h4, h5]

theorem keys_optsEntries (a : MinAggregation) :
    a.optsEntries.map Prod.fst =
      (if a.field ≠ "" then ["field"] else []) ++
      (if a.format ≠ "" then ["format"] else []) ++
      (if !a.missing.isNil then ["missing"] else []) ++
      (if a.script.isSome then ["script"] else []) := by
  unfold MinAggregation.optsEntries
  cases a.script <;>
  by_cases h1 : a.field = "" <;> by_cases h2 : a.format = "" <;>
  cases h3 : a.missing.isNil <;>
  simp [h1, h2]

/-- C11: no exclusivity is enforced between options.  For every non-empty
`f` and non-nil `m`, `NewMinAggregation().Field(f).Missing(m)` renders
successfully to exactly `{"min": {"field": f, "missing": m}}`; and for every
builder whose field is non-empty and whose script is set, every successful
render has both `"field"` and `"script"` in the `"min"` mapping. -/
theorem C11_field_and_missing_both_rendered (f : String) (m : Value)
    (hf : f ≠ "") (hm : m.isNil = false) (sched : Schedule) :
    ((NewMinAggregation.Field f).Missing m).Source sched =
      (Value.obj [("min", Value.obj [("field", Value.str f), ("missing", m)])], none) ∧
    (∀ (a : MinAggregation) (s : Script) (out : Value),
      a.field ≠ "" → a.script = some s → a.Source sched = (out, none) →
      minOption "field" out = some (Value.str a.field) ∧
      minOption "script" out = some s.Source.1) := by
  constructor
  · have h1 : ¬ ((NewMinAggregation.Field f).Missing m).scriptFails := by
      rintro ⟨s, hs, _⟩
      cases hs
    have h2 : ¬ ((NewMinAggregation.Field f).Missing m).subAggregationFails := by
      rintro ⟨p, hp, _⟩
      cases hp
    rw [Source_ok _ sched h1 h2]
    simp [MinAggregation.sourceEntries, MinAggregation.optsEntries, NewMinAggregation,
      MinAggregation.Field, MinAggregation.Missing, GoMap.len, GoMap.entries,
      StrMap.empty, hf, hm]
  · intro a s out ha hs hout
    obtain ⟨_, _, hdoc⟩ := Source_eq_ok a sched out hout
    subst hdoc
    rw [minOption_sourceEntries, minOption_sourceEntries, lookup_field_optsEntries,
      lookup_script_optsEntries, hs]
    simp [ha]

theorem C11_field_and_missing_both_rendered_witness :
    ((NewMinAggregation.Field "price").Missing (Value.num 0)).Source [] =
      (Value.obj [("min", Value.obj [("field", Value.str "price"),
        ("missing", Value.num 0)])], none) :=
  (C11_field_and_missing_both_rendered "price" (Value.num 0) (by decide) rfl []).1

/-- C13: when the script is set and its render fails with `e`, `Source`
returns the nil value and `e` itself, whatever the other attributes and the
sub-aggregations are; when the script is set and renders to `v`, the `"min"`
mapping of every successful render has `"script"` with value `v`; when the
script is not set, the `"min"` mapping has no `"script"` key. -/
theorem C13_script_error_first (a : MinAggregation) (sched : Schedule) :
    (∀ s e, a.script = some s → s.Source.2 = some e →
      a.Source sched = (Value.null, some e)) ∧
    (∀ s out, a.script = some s → a.Source sched = (out, none) →
      minOption "script" out = some s.Source.1) ∧
    (∀ out, a.script = none → a.Source sched = (out, none) →
      minOption "script" out = none) := by
  refine ⟨fun s e hs he => Source_of_script_error a sched s e hs he, ?_, ?_⟩
  · intro s out hs hout
    obtain ⟨_, _, hdoc⟩ := Source_eq_ok a sched out hout
    subst hdoc
    rw [minOption_sourceEntries, lookup_script_optsEntries, hs]
    rfl
  · intro out hs hout
    obtain ⟨_, _, hdoc⟩ := Source_eq_ok a sched out hout
    subst hdoc
    rw [minOption_sourceEntries, lookup_script_optsEntries, hs]
    rfl

/-- C15 as stated fails: the builder returned by `NewMinAggregation` renders
successfully to `{"min": {}}`, a mapping with one key. -/
theorem C15_one_key_counterexample :
    ¬ (∀ (a : MinAggregation) (sched : Schedule) (out : Value),
        a.Source sched = (out, none) →
        (Value.keys out).length = 2 ∨ (Value.keys out).length = 3) := by
  intro h
  have h1 := h NewMinAggregation [] (Value.obj [("min", Value.obj [])]) rfl
  have h2 : (Value.keys (Value.obj [("min", Value.obj [])])).length = 1 := rfl
  omega

/-- C15 (amended): on success `Source` returns a top-level mapping with one,
two or three keys: `"min"`, plus `"aggregations"` when the sub-aggregation map
is non-empty, plus `"meta"` when the metadata map is non-empty. -/
theorem C15_one_to_three_keys (a : MinAggregation) (sched : Schedule) (out : Value)
    (hout : a.Source sched = (out, none)) :
    (Value.keys out).length =
      1 + (if GoMap.len a.subAggregations > 0 then 1 else 0) +
        (if GoMap.len a.meta > 0 then 1 else 0) ∧
    1 ≤ (Value.keys out).length ∧ (Value.keys out).length ≤ 3 := by
  obtain ⟨_, _, hdoc⟩ := Source_eq_ok a sched out hout
  subst hdoc
  simp only [Value.keys, keys_sourceEntries]
  by_cases h4 : GoMap.len a.subAggregations > 0 <;>
  by_cases h5 : GoMap.len a.meta > 0 <;>
  simp [h4, h5]

theorem C15_one_to_three_keys_witness :
    (Value.keys (Value.obj [("min", Value.obj [])])).length =
      1 + (if GoMap.len NewMinAggregation.subAggregations > 0 then 1 else 0) +
        (if GoMap.len NewMinAggregation.meta > 0 then 1 else 0) ∧
    1 ≤ (Value.keys (Value.obj [("min", Value.obj [])])).length ∧
    (Value.keys (Value.obj [("min", Value.obj [])])).length ≤ 3 :=
  C15_one_to_three_keys NewMinAggregation [] (Value.obj [("min", Value.obj [])]) rfl

/-- C17: on every successful render the top-level keys are exactly `"min"`,
plus `"aggregations"` when the sub-aggregation map is non-empty, plus `"meta"`
when the metadata map is non-empty; `"min"` is always present and maps to a
mapping, whose keys are among `"field"`, `"script"`, `"format"` and
`"missing"`. -/
theorem C17_keys_of_render (a : MinAggregation) (sched : Schedule) (out : Value)
    (hout : a.Source sched = (out, none)) :
    (∀ k, k ∈ Value.keys out ↔
      k = "min" ∨ (k = "aggregations" ∧ GoMap.len a.subAggregations > 0) ∨
        (k = "meta" ∧ GoMap.len a.meta > 0)) ∧
    (∃ opts, out.get? "min" = some (Value.obj opts) ∧
      ∀ k, k ∈ Value.keys (Value.obj opts) →
        k = "field" ∨ k = "script" ∨ k = "format" ∨ k = "missing") := by
  obtain ⟨_, _, hdoc⟩ := Source_eq_ok a sched out hout
  subst hdoc
  constructor
  · intro k
    simp only [Value.keys, keys_sourceEntries]
    by_cases h4 : GoMap.len a.subAggregations > 0 <;>
    by_cases h5 : GoMap.len a.meta > 0 <;>
    simp [h4, h5] <;> tauto
  · refine ⟨a.optsEntries, get_min_sourceEntries a, ?_⟩
    intro k hk
    simp only [Value.keys, keys_optsEntries] at hk
    simp only [List.mem_append] at hk
    rcases hk with ((hk | hk) | hk) | hk
    · by_cases h1 : a.field = "" <;> simp [h1] at hk
      exact Or.inl hk
    · by_cases h2 : a.format = "" <;> simp [h2] at hk
      exact Or.inr (Or.inr (Or.inl hk))
    · cases h3 : a.missing.isNil <;> simp [h3] at hk
      exact Or.inr (Or.inr (Or.inr hk))
    · cases h6 : a.script.isSome <;> simp [h6] at hk
      exact Or.inr (Or.inl hk)

theorem C17_keys_of_render_witness :
    (∀ k, k ∈ Value.keys (Value.obj [("min", Value.obj [])]) ↔
      k = "min" ∨ (k = "aggregations" ∧ GoMap.len NewMinAggregation.subAggregations > 0) ∨
        (k = "meta" ∧ GoMap.len NewMinAggregation.meta > 0)) ∧
    (∃ opts, (Value.obj [("min", Value.obj [])]).get? "min" = some (Value.obj opts) ∧
      ∀ k, k ∈ Value.keys (Value.obj opts) →
        k = "field" ∨ k = "script" ∨ k = "format" ∨ k = "missing") :=
  C17_keys_of_render NewMinAggregation [] (Value.obj [("min", Value.obj [])]) rfl

/-! ## More on maps and chains of calls -/

theorem calls_append (a : MinAggregation) (cs cs' : List Setter) :
    a.calls (cs ++ cs') = (a.calls cs).bind (fun b => b.calls cs') := by
  induction cs generalizing a with
  | nil => rfl
  | cons c cs ih =>
    simp only [List.cons_append, MinAggregation.calls]
    cases hc : a.call c with
    | none => rfl
    | some a' => exact ih a'

/-- A chain of calls on a builder whose sub-aggregation map is made runs to
the end, and the map of the result is made. -/
theorem calls_made (a : MinAggregation) (cs : List Setter)
    (ha : a.subAggregations ≠ none) :
    ∃ b, a.calls cs = some b ∧ b.subAggregations ≠ none := by
  induction cs generalizing a with
  | nil => exact ⟨a, rfl, ha⟩
  | cons c cs ih =>
    have hstep : ∃ a', a.call c = some a' ∧ a'.subAggregations ≠ none := by
      cases c with
      | SubAggregation n s =>
        cases hm : a.subAggregations with
        | none => exact absurd hm ha
        | some m =>
          refine ⟨{ a with subAggregations := some (m.insert n s) }, ?_, ?_⟩
          · simp only [MinAggregation.call, MinAggregation.SubAggregation, hm]
          · simp
      | Field f => exact ⟨a.Field f, rfl, ha⟩
      | Script s => exact ⟨a.Script s, rfl, ha⟩
      | Format f => exact ⟨a.Format f, rfl, ha⟩
      | Missing v => exact ⟨a.Missing v, rfl, ha⟩
      | Meta m => exact ⟨a.Meta m, rfl, ha⟩
    obtain ⟨a', hc, ha'⟩ := hstep
    obtain ⟨b, hb, hbm⟩ := ih a' ha'
    exact ⟨b, by simp only [MinAggregation.calls, hc, hb], hbm⟩

theorem keysSorted_eq_of_mem_iff {α : Type} (l₁ l₂ : List (String × α))
    (h₁ : KeysSorted l₁) (h₂ : KeysSorted l₂) (h : ∀ p, p ∈ l₁ ↔ p ∈ l₂) : l₁ = l₂ :=
  keysSorted_ext l₁ l₂
    ((List.perm_ext_iff_of_nodup (List.Nodup.of_map Prod.fst (keysSorted_nodup l₁ h₁))
      (List.Nodup.of_map Prod.fst (keysSorted_nodup l₂ h₂))).2 h) h₁ h₂

theorem mem_iff_lookup {α : Type} (l : List (String × α)) (hl : KeysSorted l)
    (p : String × α) : p ∈ l ↔ l.lookup p.1 = some p.2 := by
  induction l with
  | nil => simp [List.lookup]
  | cons hd tl ih =>
    obtain ⟨k, v⟩ := hd
    have hs := List.pairwise_cons.1 hl
    rw [lookup_cons_ite, List.mem_cons]
    by_cases hk : p.1 = k
    · simp only [hk, if_true]
      constructor
      · rintro (h | h)
        · rw [h]
        · exact absurd hk.symm (keyCode_lt_ne (hs.1 p h))
      · intro h
        left
        have hv : v = p.2 := Option.some.inj h
        exact Prod.ext hk hv.symm
    · simp only [hk, if_false]
      constructor
      · rintro (h | h)
        · exact absurd (by rw [h]) hk
        · exact (ih hs.2).1 h
      · intro h
        exact Or.inr ((ih hs.2).2 h)

theorem keysSorted_eq_of_lookup {α : Type} (l₁ l₂ : List (String × α))
    (h₁ : KeysSorted l₁) (h₂ : KeysSorted l₂)
    (h : ∀ n, l₁.lookup n = l₂.lookup n) : l₁ = l₂ := by
  refine keysSorted_eq_of_mem_iff l₁ l₂ h₁ h₂ ?_
  intro p
  rw [mem_iff_lookup l₁ h₁, mem_iff_lookup l₂ h₂, h]

theorem StrMap.eq_of_entries {α : Type} (m₁ m₂ : StrMap α)
    (h : m₁.entries = m₂.entries) : m₁ = m₂ := by
  cases m₁
  cases m₂
  simp only at h
  subst h
  rfl

theorem StrMap.insert_comm {α : Type} (m : StrMap α) (k₁ k₂ : String) (v₁ v₂ : α)
    (h : k₁ ≠ k₂) : (m.insert k₁ v₁).insert k₂ v₂ = (m.insert k₂ v₂).insert k₁ v₁ := by
  apply StrMap.eq_of_entries
  apply keysSorted_eq_of_lookup _ _ (StrMap.sorted _) (StrMap.sorted _)
  intro n
  simp only [StrMap.insert, lookup_insertEntry]
  by_cases h1 : n = k₁
  · have h2 : ¬ n = k₂ := fun e => h (h1.symm.trans e)
    simp [h1, h]
  · simp [h1]

theorem StrMap.insert_insert {α : Type} (m : StrMap α) (k : String) (v₁ v₂ : α) :
    (m.insert k v₁).insert k v₂ = m.insert k v₂ := by
  apply StrMap.eq_of_entries
  simp only [StrMap.insert, insertEntry_insertEntry]

theorem field_stays_empty (a b : MinAggregation) (cs : List Setter)
    (h : a.calls cs = some b) (ha : a.field = "")
    (hcs : ∀ f, Setter.Field f ∉ cs) : b.field = "" := by
  refine calls_invariant (fun x => x.field = "") (fun c => ∀ f, c ≠ Setter.Field f)
    ?_ a b cs (fun c hc f e => hcs f (e ▸ hc)) ha h
  intro x c x' hok hx hc
  cases c with
  | SubAggregation n s =>
    obtain ⟨m, _, hx'⟩ := SubAggregation_eq_some x x' n s hc
    rw [hx']
    exact hx
  | Field f => exact absurd rfl (hok f)
  | _ =>
    simp only [MinAggregation.call] at hc
    injection hc with hc
    rw [← hc]
    exact hx

theorem format_stays_empty (a b : MinAggregation) (cs : List Setter)
    (h : a.calls cs = some b) (ha : a.format = "")
    (hcs : ∀ f, Setter.Format f ∉ cs) : b.format = "" := by
  refine calls_invariant (fun x => x.format = "") (fun c => ∀ f, c ≠ Setter.Format f)
    ?_ a b cs (fun c hc f e => hcs f (e ▸ hc)) ha h
  intro x c x' hok hx hc
  cases c with
  | SubAggregation n s =>
    obtain ⟨m, _, hx'⟩ := SubAggregation_eq_some x x' n s hc
    rw [hx']
    exact hx
  | Format f => exact absurd rfl (hok f)
  | _ =>
    simp only [MinAggregation.call] at hc
    injection hc with hc
    rw [← hc]
    exact hx

/-- C14: for every builder that renders successfully, the `"min"` mapping
contains `"field"` if and only if the stored field is a non-empty string, with
that string as value, and contains `"format"` if and only if the stored format
is a non-empty string, with that string as value.  Consequently `Field("")`
(resp. `Format("")`) on a builder on which `Field` (resp. `Format`) was never
called gives a builder that renders the same. -/
theorem C14_field_format_iff_nonempty :
    (∀ (a : MinAggregation) (sched : Schedule) (out : Value),
      a.Source sched = (out, none) →
      (∀ v, minOption "field" out = some v ↔ a.field ≠ "" ∧ v = Value.str a.field) ∧
      (∀ v, minOption "format" out = some v ↔ a.format ≠ "" ∧ v = Value.str a.format)) ∧
    (∀ (cs : List Setter) (b : MinAggregation),
      (∀ f, Setter.Field f ∉ cs) → NewMinAggregation.calls cs = some b →
      NewMinAggregation.calls (cs ++ [Setter.Field ""]) = some (b.Field "") ∧
      ∀ sched, (b.Field "").Source sched = b.Source sched) ∧
    (∀ (cs : List Setter) (b : MinAggregation),
      (∀ f, Setter.Format f ∉ cs) → NewMinAggregation.calls cs = some b →
      NewMinAggregation.calls (cs ++ [Setter.Format ""]) = some (b.Format "") ∧
      ∀ sched, (b.Format "").Source sched = b.Source sched) := by
  refine ⟨?_, ?_, ?_⟩
  · intro a sched out hout
    obtain ⟨_, _, hdoc⟩ := Source_eq_ok a sched out hout
    subst hdoc
    rw [minOption_sourceEntries, minOption_sourceEntries, lookup_field_optsEntries,
      lookup_format_optsEntries]
    constructor
    · intro v
      by_cases h1 : a.field = ""
      · simp [h1]
      · simp only [ne_eq, h1, not_false_eq_true, if_true, true_and]
        constructor
        · intro h
          exact (Option.some.inj h).symm
        · intro h
          rw [h]
    · intro v
      by_cases h2 : a.format = ""
      · simp [h2]
      · simp only [ne_eq, h2, not_false_eq_true, if_true, true_and]
        constructor
        · intro h
          exact (Option.some.inj h).symm
        · intro h
          rw [h]
  · intro cs b hcs hb
    have hfield : b.field = "" := field_stays_empty _ _ cs hb rfl hcs
    have heq : b.Field "" = b := by
      cases b
      simp only [MinAggregation.Field] at hfield ⊢
      rw [hfield]
    refine ⟨?_, fun sched => by rw [heq]⟩
    rw [calls_append, hb]
    rfl
  · intro cs b hcs hb
    have hformat : b.format = "" := format_stays_empty _ _ cs hb rfl hcs
    have heq : b.Format "" = b := by
      cases b
      simp only [MinAggregation.Format] at hformat ⊢
      rw [hformat]
    refine ⟨?_, fun sched => by rw [heq]⟩
    rw [calls_append, hb]
    rfl

/-- C19: every chain of setter calls on the builder returned by
`NewMinAggregation` runs to the end without a panic, the sub-aggregation map
of the resulting builder is made (not nil), and a further `SubAggregation`
call on it does not hit the assignment to an entry of a nil map. -/
theorem C19_sub_aggregation_map_made (cs : List Setter) :
    ∃ b, NewMinAggregation.calls cs = some b ∧ b.subAggregations ≠ none ∧
      ∀ n s, b.SubAggregation n s ≠ none := by
  have hnew : NewMinAggregation.subAggregations ≠ none := by
    simp [NewMinAggregation]
  obtain ⟨b, hb, hm⟩ := calls_made NewMinAggregation cs hnew
  refine ⟨b, hb, hm, ?_⟩
  intro n s
  cases hsub : b.subAggregations with
  | none => exact absurd hsub hm
  | some m => simp [MinAggregation.SubAggregation, hsub]

/-- C16 as stated fails: on the zero value `MinAggregation{}`, whose
sub-aggregation map is nil, `SubAggregation` panics (assignment to an entry of
a nil map). -/
theorem C16_nil_map_counterexample :
    ¬ (∀ (a : MinAggregation) (c : Setter), a.call c ≠ none) := by
  intro h
  exact h zeroMinAggregation (Setter.SubAggregation "x" nestedAggregation) rfl

/-- C16 (amended): on every builder, `Field`, `Script`, `Format`, `Missing`
and `Meta` store their argument as it is in their own attribute, leave the
other attributes and the sub-aggregation map unchanged, and cannot fail.  On
every builder whose sub-aggregation map is made, `SubAggregation(n, s)` does
not fail, stores `s` at `n` and leaves every other entry of the map and every
other attribute unchanged; on a builder whose map is nil it panics.  Every
builder obtained from `NewMinAggregation` by a chain of setter calls has its
map made, so no setter call fails on it. -/
theorem C16_setters_store_and_frame (a : MinAggregation) :
    (∀ f, (a.Field f).field = f ∧ (a.Field f).script = a.script ∧
      (a.Field f).format = a.format ∧ (a.Field f).missing = a.missing ∧
      (a.Field f).subAggregations = a.subAggregations ∧ (a.Field f).meta = a.meta) ∧
    (∀ s, (a.Script s).script = s ∧ (a.Script s).field = a.field ∧
      (a.Script s).format = a.format ∧ (a.Script s).missing = a.missing ∧
      (a.Script s).subAggregations = a.subAggregations ∧ (a.Script s).meta = a.meta) ∧
    (∀ f, (a.Format f).format = f ∧ (a.Format f).field = a.field ∧
      (a.Format f).script = a.script ∧ (a.Format f).missing = a.missing ∧
      (a.Format f).subAggregations = a.subAggregations ∧ (a.Format f).meta = a.meta) ∧
    (∀ v, (a.Missing v).missing = v ∧ (a.Missing v).field = a.field ∧
      (a.Missing v).script = a.script ∧ (a.Missing v).format = a.format ∧
      (a.Missing v).subAggregations = a.subAggregations ∧ (a.Missing v).meta = a.meta) ∧
    (∀ m, (a.Meta m).meta = m ∧ (a.Meta m).field = a.field ∧
      (a.Meta m).script = a.script ∧ (a.Meta m).format = a.format ∧
      (a.Meta m).missing = a.missing ∧
      (a.Meta m).subAggregations = a.subAggregations) ∧
    (∀ c, (∀ n s, c ≠ Setter.SubAggregation n s) → a.call c ≠ none) ∧
    (∀ m, a.subAggregations = some m → ∀ n s, ∃ a', a.SubAggregation n s = some a' ∧
      (GoMap.entries a'.subAggregations).lookup n = some s ∧
      (∀ n', n' ≠ n → (GoMap.entries a'.subAggregations).lookup n' =
        (GoMap.entries a.subAggregations).lookup n') ∧
      a'.field = a.field ∧ a'.script = a.script ∧ a'.format = a.format ∧
      a'.missing = a.missing ∧ a'.meta = a.meta) ∧
    (a.subAggregations = none → ∀ n s, a.SubAggregation n s = none) ∧
    (∀ cs b, NewMinAggregation.calls cs = some b → ∀ c, b.call c ≠ none) := by
  refine ⟨fun f => ⟨rfl, rfl, rfl, rfl, rfl, rfl⟩, fun s => ⟨rfl, rfl, rfl, rfl, rfl, rfl⟩,
    fun f => ⟨rfl, rfl, rfl, rfl, rfl, rfl⟩, fun v => ⟨rfl, rfl, rfl, rfl, rfl, rfl⟩,
    fun m => ⟨rfl, rfl, rfl, rfl, rfl, rfl⟩, ?_, ?_, ?_, ?_⟩
  · intro c hc
    cases c with
    | SubAggregation n s => exact absurd rfl (hc n s)
    | _ => simp [MinAggregation.call]
  · intro m hsub n s
    refine ⟨{ a with subAggregations := some (m.insert n s) }, ?_, ?_, ?_,
      rfl, rfl, rfl, rfl, rfl⟩
    · simp only [MinAggregation.SubAggregation, hsub]
    · simp [GoMap.entries, StrMap.insert, lookup_insertEntry]
    · intro n' hn'
      simp [GoMap.entries, StrMap.insert, lookup_insertEntry, hn', hsub]
  · intro hnil n s
    simp only [MinAggregation.SubAggregation, hnil]
  · intro cs b hb c
    have hnew : NewMinAggregation.subAggregations ≠ none := by
      simp [NewMinAggregation]
    obtain ⟨x, hx, hm⟩ := calls_made NewMinAggregation cs hnew
    rw [hb] at hx
    injection hx with hx
    subst hx
    obtain ⟨m, hsub⟩ := Option.ne_none_iff_exists'.1 hm
    cases c with
    | SubAggregation n s => simp [MinAggregation.call, MinAggregation.SubAggregation, hsub]
    | _ => simp [MinAggregation.call]

theorem C16_setters_store_and_frame_witness :
    ∃ a', (NewMinAggregation.Field "price").SubAggregation "nested" nestedAggregation
        = some a' ∧
      (GoMap.entries a'.subAggregations).lookup "nested" = some nestedAggregation ∧
      a'.field = "price" := by
  obtain ⟨a', h1, h2, _, h3, _⟩ :=
    (C16_setters_store_and_frame (NewMinAggregation.Field "price")).2.2.2.2.2.2.1
      StrMap.empty rfl "nested" nestedAggregation
  exact ⟨a', h1, h2, h3⟩


theorem calls_field (a b : MinAggregation) (cs : List Setter) (h : a.calls cs = some b) :
    some b.field = lastArg Setter.fieldArg (some a.field) cs := by
  refine calls_view Setter.fieldArg (fun x => some x.field) ?_ a b cs h
  intro x c x' hc
  cases c with
  | SubAggregation n s =>
    obtain ⟨m, _, hx⟩ := SubAggregation_eq_some x x' n s hc
    rw [hx]
    rfl
  | _ =>
    simp only [MinAggregation.call] at hc
    injection hc with hc
    rw [← hc]
    rfl

theorem calls_format (a b : MinAggregation) (cs : List Setter) (h : a.calls cs = some b) :
    some b.format = lastArg Setter.formatArg (some a.format) cs := by
  refine calls_view Setter.formatArg (fun x => some x.format) ?_ a b cs h
  intro x c x' hc
  cases c with
  | SubAggregation n s =>
    obtain ⟨m, _, hx⟩ := SubAggregation_eq_some x x' n s hc
    rw [hx]
    rfl
  | _ =>
    simp only [MinAggregation.call] at hc
    injection hc with hc
    rw [← hc]
    rfl

theorem calls_script (a b : MinAggregation) (cs : List Setter) (h : a.calls cs = some b) :
    some b.script = lastArg Setter.scriptArg (some a.script) cs := by
  refine calls_view Setter.scriptArg (fun x => some x.script) ?_ a b cs h
  intro x c x' hc
  cases c with
  | SubAggregation n s =>
    obtain ⟨m, _, hx⟩ := SubAggregation_eq_some x x' n s hc
    rw [hx]
    rfl
  | _ =>
    simp only [MinAggregation.call] at hc
    injection hc with hc
    rw [← hc]
    rfl

/-- Two chains with the same last argument have the same view at the end,
whatever the starting value. -/
theorem lastArg_congr {β : Type} (f : Setter → Option β) (init : Option β)
    (cs cs' : List Setter) (h : lastArg f none cs = lastArg f none cs') :
    lastArg f init cs = lastArg f init cs' := by
  rw [lastArg_init f init cs, lastArg_init f init cs', h]

/-- A chain that runs to the end on a builder whose map is nil contains no
`SubAggregation` call, so the map stays nil. -/
theorem calls_nil_map (a b : MinAggregation) (cs : List Setter)
    (h : a.calls cs = some b) (ha : a.subAggregations = none) :
    b.subAggregations = none := by
  refine calls_invariant (fun x => x.subAggregations = none) (fun _ => True)
    ?_ a b cs (fun _ _ => trivial) ha h
  intro x c x' _ hx hc
  cases c with
  | SubAggregation n s =>
    obtain ⟨m, hm, _⟩ := SubAggregation_eq_some x x' n s hc
    rw [hx] at hm
    cases hm
  | _ =>
    simp only [MinAggregation.call] at hc
    injection hc with hc
    rw [← hc]
    exact hx

/-- The builders reached by two chains of calls from the same builder are
equal when the chains agree on the last argument of every attribute. -/
theorem calls_eq_of_lastArg (a b b' : MinAggregation) (cs cs' : List Setter)
    (h : a.calls cs = some b) (h' : a.calls cs' = some b')
    (hfield : lastArg Setter.fieldArg none cs = lastArg Setter.fieldArg none cs')
    (hscript : lastArg Setter.scriptArg none cs = lastArg Setter.scriptArg none cs')
    (hformat : lastArg Setter.formatArg none cs = lastArg Setter.formatArg none cs')
    (hmissing : lastArg Setter.missingArg none cs = lastArg Setter.missingArg none cs')
    (hmeta : lastArg Setter.metaArg none cs = lastArg Setter.metaArg none cs')
    (hsub : ∀ n, lastArg (Setter.subArg n) none cs = lastArg (Setter.subArg n) none cs') :
    b = b' := by
  have e1 : some b.field = some b'.field := by
    rw [calls_field a b cs h, calls_field a b' cs' h']
    exact lastArg_congr _ _ _ _ hfield
  have e2 : some b.script = some b'.script := by
    rw [calls_script a b cs h, calls_script a b' cs' h']
    exact lastArg_congr _ _ _ _ hscript
  have e3 : some b.format = some b'.format := by
    rw [calls_format a b cs h, calls_format a b' cs' h']
    exact lastArg_congr _ _ _ _ hformat
  have e4 : some b.missing = some b'.missing := by
    rw [calls_missing a b cs h, calls_missing a b' cs' h']
    exact lastArg_congr _ _ _ _ hmissing
  have e5 : some b.meta = some b'.meta := by
    rw [calls_meta a b cs h, calls_meta a b' cs' h']
    exact lastArg_congr _ _ _ _ hmeta
  have e6 : ∀ n, (GoMap.entries b.subAggregations).lookup n =
      (GoMap.entries b'.subAggregations).lookup n := by
    intro n
    rw [calls_sub n a b cs h, calls_sub n a b' cs' h']
    exact lastArg_congr _ _ _ _ (hsub n)
  have e7 : b.subAggregations = b'.subAggregations := by
    cases ha : a.subAggregations with
    | none => rw [calls_nil_map a b cs h ha, calls_nil_map a b' cs' h' ha]
    | some m =>
      have hne : a.subAggregations ≠ none := by
        rw [ha]
        simp
      obtain ⟨x, hx, hxm⟩ := calls_made a cs hne
      obtain ⟨x', hx', hxm'⟩ := calls_made a cs' hne
      rw [h] at hx
      rw [h'] at hx'
      injection hx with hx
      injection hx' with hx'
      subst hx
      subst hx'
      obtain ⟨m₁, hm₁⟩ := Option.ne_none_iff_exists'.1 hxm
      obtain ⟨m₂, hm₂⟩ := Option.ne_none_iff_exists'.1 hxm'
      rw [hm₁, hm₂] at e6
      rw [hm₁, hm₂]
      congr 1
      exact StrMap.eq_of_entries _ _
        (keysSorted_eq_of_lookup _ _ m₁.sorted m₂.sorted e6)
  cases b
  cases b'
  simp only at e1 e2 e3 e4 e5 e7
  injection e1 with e1
  injection e2 with e2
  injection e3 with e3
  injection e4 with e4
  injection e5 with e5
  subst e1 e2 e3 e4 e5 e7
  rfl

theorem calls_pair_comm (a : MinAggregation) (c₁ c₂ : Setter)
    (h : c₁.sameAttribute c₂ = false) : a.calls [c₁, c₂] = a.calls [c₂, c₁] := by
  cases hm : a.subAggregations with
  | none =>
    cases c₁ <;> cases c₂ <;>
    simp_all [MinAggregation.calls, MinAggregation.call, MinAggregation.SubAggregation,
      Setter.sameAttribute, MinAggregation.Field, MinAggregation.Script,
      MinAggregation.Format, MinAggregation.Missing, MinAggregation.Meta]
  | some m =>
    cases c₁ with
    | SubAggregation n s =>
      cases c₂ with
      | SubAggregation n' s' =>
        have hn : n ≠ n' := by
          simpa [Setter.sameAttribute] using h
        simp only [MinAggregation.calls, MinAggregation.call, MinAggregation.SubAggregation,
          hm, StrMap.insert_comm m n n' s s' hn]
      | _ =>
        simp [MinAggregation.calls, MinAggregation.call, MinAggregation.SubAggregation,
          hm, MinAggregation.Field, MinAggregation.Script,
          MinAggregation.Format, MinAggregation.Missing, MinAggregation.Meta]
    | _ =>
      cases c₂ <;>
      simp_all [MinAggregation.calls, MinAggregation.call, MinAggregation.SubAggregation,
        Setter.sameAttribute, MinAggregation.Field, MinAggregation.Script,
        MinAggregation.Format, MinAggregation.Missing, MinAggregation.Meta]

theorem calls_pair_last (a : MinAggregation) (c₁ c₂ : Setter)
    (h : c₁.sameAttribute c₂ = true) : a.calls [c₁, c₂] = a.calls [c₂] := by
  cases hm : a.subAggregations with
  | none =>
    cases c₁ <;> cases c₂ <;>
    simp_all [MinAggregation.calls, MinAggregation.call, MinAggregation.SubAggregation,
      Setter.sameAttribute, MinAggregation.Field, MinAggregation.Script,
      MinAggregation.Format, MinAggregation.Missing, MinAggregation.Meta]
  | some m =>
    cases c₁ with
    | SubAggregation n s =>
      cases c₂ with
      | SubAggregation n' s' =>
        have hn : n = n' := by
          simpa [Setter.sameAttribute] using h
        subst hn
        simp only [MinAggregation.calls, MinAggregation.call, MinAggregation.SubAggregation,
          hm, StrMap.insert_insert]
      | _ => simp [Setter.sameAttribute] at h
    | _ =>
      cases c₂ <;>
      simp_all [MinAggregation.calls, MinAggregation.call, MinAggregation.SubAggregation,
        Setter.sameAttribute, MinAggregation.Field, MinAggregation.Script,
        MinAggregation.Format, MinAggregation.Missing, MinAggregation.Meta]

/-- C18: the rendered output depends only on the final attribute values.  Two
chains of setter calls from the same builder that agree on the last argument
passed for every attribute (and for every sub-aggregation name) reach the same
builder, hence render equally.  In particular two calls that write different
attributes (or sub-aggregation entries of different names) commute, and of
two calls that write the same attribute the last one wins. -/
theorem C18_render_independent_of_call_order (a : MinAggregation) :
    (∀ (cs cs' : List Setter) (b b' : MinAggregation),
      a.calls cs = some b → a.calls cs' = some b' →
      lastArg Setter.fieldArg none cs = lastArg Setter.fieldArg none cs' →
      lastArg Setter.scriptArg none cs = lastArg Setter.scriptArg none cs' →
      lastArg Setter.formatArg none cs = lastArg Setter.formatArg none cs' →
      lastArg Setter.missingArg none cs = lastArg Setter.missingArg none cs' →
      lastArg Setter.metaArg none cs = lastArg Setter.metaArg none cs' →
      (∀ n, lastArg (Setter.subArg n) none cs = lastArg (Setter.subArg n) none cs') →
      b = b' ∧ ∀ sched, b.Source sched = b'.Source sched) ∧
    (∀ c₁ c₂ sched, c₁.sameAttribute c₂ = false →
      a.calls [c₁, c₂] = a.calls [c₂, c₁] ∧
      (a.calls [c₁, c₂]).map (fun b => b.Source sched) =
        (a.calls [c₂, c₁]).map (fun b => b.Source sched)) ∧
    (∀ c₁ c₂ sched, c₁.sameAttribute c₂ = true →
      a.calls [c₁, c₂] = a.calls [c₂] ∧
      (a.calls [c₁, c₂]).map (fun b => b.Source sched) =
        (a.calls [c₂]).map (fun b => b.Source sched)) ∧
    (∀ f g sched,
      ((a.Field f).Format g).Source sched = ((a.Format g).Field f).Source sched) ∧
    (∀ f₁ f₂ sched, ((a.Field f₁).Field f₂).Source sched = (a.Field f₂).Source sched) := by
  refine ⟨?_, ?_, ?_, fun _ _ _ => rfl, fun _ _ _ => rfl⟩
  · intro cs cs' b b' h h' h1 h2 h3 h4 h5 h6
    have hb := calls_eq_of_lastArg a b b' cs cs' h h' h1 h2 h3 h4 h5 h6
    exact ⟨hb, fun sched => by rw [hb]⟩
  · intro c₁ c₂ sched h
    have hc := calls_pair_comm a c₁ c₂ h
    exact ⟨hc, by rw [hc]⟩
  · intro c₁ c₂ sched h
    have hc := calls_pair_last a c₁ c₂ h
    exact ⟨hc, by rw [hc]⟩

theorem C18_render_independent_of_call_order_witness :
    NewMinAggregation.calls
        [Setter.SubAggregation "a" nestedAggregation,
         Setter.SubAggregation "b" (failingAggregation "boom")] =
      NewMinAggregation.calls
        [Setter.SubAggregation "b" (failingAggregation "boom"),
         Setter.SubAggregation "a" nestedAggregation] :=
  ((C18_render_independent_of_call_order NewMinAggregation).2.1
    (Setter.SubAggregation "a" nestedAggregation)
    (Setter.SubAggregation "b" (failingAggregation "boom")) [] rfl).1

/-! ## What `Source` writes -/

theorem Heap.Preserves.refl (n : Nat) (h : Heap) : Heap.Preserves n h h :=
  ⟨Nat.le_refl _, fun _ _ => rfl⟩

theorem Heap.Preserves.trans {n : Nat} {h₁ h₂ h₃ : Heap}
    (h₁₂ : Heap.Preserves n h₁ h₂) (h₂₃ : Heap.Preserves n h₂ h₃) :
    Heap.Preserves n h₁ h₃ :=
  ⟨Nat.le_trans h₁₂.1 h₂₃.1, fun i hi => (h₂₃.2 i hi).trans (h₁₂.2 i hi)⟩

theorem preserves_make (n : Nat) (h : Heap) (hn : n ≤ h.length) :
    Heap.Preserves n h (h.make).1 := by
  refine ⟨by simp [Heap.make], ?_⟩
  intro i hi
  simp only [Heap.make, List.get?_eq_getElem?]
  exact List.getElem?_append_left (Nat.lt_of_lt_of_le hi hn)

theorem length_assign (h : Heap) (addr : Nat) (k : String) (c : Cell) :
    (h.assign addr k c).length = h.length := by
  unfold Heap.assign
  split <;> simp

theorem preserves_assign (n : Nat) (h : Heap) (addr : Nat) (k : String) (c : Cell)
    (hn : n ≤ addr) : Heap.Preserves n h (h.assign addr k c) := by
  refine ⟨Nat.le_of_eq (length_assign h addr k c).symm, ?_⟩
  intro i hi
  unfold Heap.assign
  split
  · simp only [List.get?_eq_getElem?]
    exact List.getElem?_set_ne (by omega)
  · rfl

theorem preserves_scriptSourceMem (n : Nat) (script : Option Script) (opts : Nat)
    (h : Heap) (hn : n ≤ opts) :
    Heap.Preserves n h (scriptSourceMem script opts h).1 := by
  unfold scriptSourceMem
  split
  · exact Heap.Preserves.refl n h
  · split
    · exact Heap.Preserves.refl n h
    · exact preserves_assign n h opts _ _ hn

theorem preserves_subAggregationsSourceMem (n : Nat)
    (order : List (String × Aggregation)) (aggsMap : Nat) (h : Heap) (hn : n ≤ aggsMap) :
    Heap.Preserves n h (subAggregationsSourceMem order aggsMap h).1 := by
  induction order generalizing h with
  | nil => exact Heap.Preserves.refl n h
  | cons hd tl ih =>
    obtain ⟨name, agg⟩ := hd
    unfold subAggregationsSourceMem
    split
    · exact Heap.Preserves.refl n h
    · exact (preserves_assign n h aggsMap _ _ hn).trans (ih _)

theorem preserves_ite (n : Nat) (h₀ h : Heap) (c : Prop) [Decidable c] (f : Heap → Heap)
    (hh : Heap.Preserves n h₀ h) (hf : Heap.Preserves n h (f h)) :
    Heap.Preserves n h₀ (if c then f h else h) := by
  split
  · exact hh.trans hf
  · exact hh

/-- Every object that exists when `Source` is called is the same when it
returns: `Source` only makes new maps and writes into them. -/
theorem preserves_SourceMem (h₀ : Heap) (a : Nat) (sched : Schedule) :
    Heap.Preserves h₀.length h₀ (SourceMem h₀ a sched).1 := by
  have hsrc : h₀.length ≤ (h₀.make).2 := Nat.le_refl _
  have p1 : Heap.Preserves h₀.length h₀ (h₀.make).1 :=
    preserves_make _ h₀ (Nat.le_refl _)
  have p2 : Heap.Preserves h₀.length h₀ ((h₀.make).1.make).1 :=
    p1.trans (preserves_make _ _ p1.1)
  have hopts : h₀.length ≤ ((h₀.make).1.make).2 := p1.1
  have p3 := p2.trans (preserves_assign h₀.length ((h₀.make).1.make).1 (h₀.make).2 "min"
    (Cell.ref ((h₀.make).1.make).2) hsrc)
  unfold SourceMem
  simp only []
  generalize ((h₀.make).1.make).1.assign (h₀.make).2 "min"
    (Cell.ref ((h₀.make).1.make).2) = h3 at p3 ⊢
  have p4 : Heap.Preserves h₀.length h₀
      (if (h3.builderAt a).field ≠ "" then
        h3.assign ((h₀.make).1.make).2 "field" (Cell.lit (Value.str (h3.builderAt a).field))
      else h3) :=
    preserves_ite _ _ _ _ (fun h => h.assign ((h₀.make).1.make).2 "field"
      (Cell.lit (Value.str (h3.builderAt a).field))) p3 (preserves_assign _ _ _ _ _ hopts)
  generalize (if (h3.builderAt a).field ≠ "" then
        h3.assign ((h₀.make).1.make).2 "field" (Cell.lit (Value.str (h3.builderAt a).field))
      else h3) = h4 at p4 ⊢
  have p5 := p4.trans (preserves_scriptSourceMem h₀.length (h4.builderAt a).script
    ((h₀.make).1.make).2 h4 hopts)
  split
  · rename_i h5 err heq
    rw [heq] at p5
    exact p5
  · rename_i h5 heq
    rw [heq] at p5
    simp only at p5
    have p6 : Heap.Preserves h₀.length h₀
        (if (h5.builderAt a).format ≠ "" then
          h5.assign ((h₀.make).1.make).2 "format"
            (Cell.lit (Value.str (h5.builderAt a).format))
        else h5) :=
      preserves_ite _ _ _ _ (fun h => h.assign ((h₀.make).1.make).2 "format"
        (Cell.lit (Value.str (h5.builderAt a).format))) p5
        (preserves_assign _ _ _ _ _ hopts)
    generalize (if (h5.builderAt a).format ≠ "" then
          h5.assign ((h₀.make).1.make).2 "format"
            (Cell.lit (Value.str (h5.builderAt a).format))
        else h5) = h6 at p6 ⊢
    have p7 : Heap.Preserves h₀.length h₀
        (if (!(h6.builderAt a).missing.isNil) = true then
          h6.assign ((h₀.make).1.make).2 "missing" (h6.builderAt a).missing
        else h6) :=
      preserves_ite _ _ _ _ (fun h => h.assign ((h₀.make).1.make).2 "missing"
        (h6.builderAt a).missing) p6 (preserves_assign _ _ _ _ _ hopts)
    generalize (if (!(h6.builderAt a).missing.isNil) = true then
          h6.assign ((h₀.make).1.make).2 "missing" (h6.builderAt a).missing
        else h6) = h7 at p7 ⊢
    have p8 : Heap.Preserves h₀.length h₀
        (if h7.lenAt (h7.builderAt a).subAggregations > 0 then
          subAggregationsSourceMem
            (rangeOrder sched (h7.aggregationsAt (h7.builderAt a).subAggregations))
            (h7.make).2
            ((h7.make).1.assign (h₀.make).2 "aggregations" (Cell.ref (h7.make).2))
        else (h7, none)).1 := by
      split
      · have q1 := p7.trans (preserves_make _ h7 p7.1)
        have q2 := q1.trans (preserves_assign h₀.length (h7.make).1 (h₀.make).2
          "aggregations" (Cell.ref (h7.make).2) hsrc)
        exact q2.trans (preserves_subAggregationsSourceMem _ _ _ _ p7.1)
      · exact p7
    split
    · rename_i h8 err heq8
      rw [heq8] at p8
      exact p8
    · rename_i h8 heq8
      rw [heq8] at p8
      simp only at p8 ⊢
      split
      · split
        · exact p8.trans (preserves_assign _ _ _ _ _ hsrc)
        · exact p8
      · exact p8

/-! ## `Source` on the heap and `Source` on the builder agree -/

theorem mapEntries_insertEntry {α β : Type} (f : α → β) (k : String) (c : α)
    (l : List (String × α)) :
    mapEntries f (insertEntry k c l) = insertEntry k (f c) (mapEntries f l) := by
  induction l with
  | nil => rfl
  | cons hd tl ih =>
    obtain ⟨k', v'⟩ := hd
    by_cases h1 : keyCode k < keyCode k'
    · simp [insertEntry, mapEntries, h1]
    · by_cases h2 : k = k'
      · simp [insertEntry, mapEntries, h1, h2]
      · simp only [mapEntries] at ih
        simp [insertEntry, mapEntries, h1, h2, ih]

theorem get?_assign_same (h : Heap) (addr : Nat) (k : String) (c : Cell) (m : StrMap Cell)
    (hm : h.get? addr = some (Obj.values m)) :
    (h.assign addr k c).get? addr = some (Obj.values (m.insert k c)) := by
  have hlt : addr < h.length := by
    by_contra hge
    rw [List.get?_eq_getElem?, List.getElem?_eq_none (by omega)] at hm
    cases hm
  unfold Heap.assign
  rw [hm]
  simp only [List.get?_eq_getElem?]
  rw [List.getElem?_set_self hlt]

theorem get?_assign_ne (h : Heap) (addr i : Nat) (k : String) (c : Cell) (hi : i ≠ addr) :
    (h.assign addr k c).get? i = h.get? i := by
  unfold Heap.assign
  split
  · simp only [List.get?_eq_getElem?]
    exact List.getElem?_set_ne (fun e => hi e.symm)
  · rfl

theorem get?_make_new (h : Heap) :
    (h.make).1.get? h.length = some (Obj.values StrMap.empty) := by
  simp [Heap.make]

theorem get?_make_old (h : Heap) (i : Nat) (hi : i < h.length) :
    (h.make).1.get? i = h.get? i := by
  simp only [Heap.make, List.get?_eq_getElem?]
  exact List.getElem?_append_left hi

theorem read_zero (h : Heap) (c : Cell) : h.read 0 c = c.toValue := by
  cases c <;> rfl

theorem read_zero_fun (h : Heap) : Heap.read h 0 = Cell.toValue :=
  funext (read_zero h)

theorem lt_length_of_get? (h : Heap) (i : Nat) (o : Obj) (hi : h.get? i = some o) :
    i < h.length := by
  by_contra hge
  rw [List.get?_eq_getElem?, List.getElem?_eq_none (by omega)] at hi
  cases hi

theorem OptsSim.assign_opts {h₀ h : Heap} {S : StrMap Cell} {Op : StrMap Value}
    (hs : OptsSim h₀ h S Op) (k : String) (c : Cell) :
    OptsSim h₀ (h.assign (h₀.length + 1) k c) S (Op.insert k c.toValue) := by
  obtain ⟨hp, hS, O, hO, hOp⟩ := hs
  refine ⟨hp.trans (preserves_assign _ _ _ _ _ (Nat.le_succ _)), ?_, O.insert k c, ?_, ?_⟩
  · rw [get?_assign_ne _ _ _ _ _ (by omega)]
    exact hS
  · exact get?_assign_same h _ k c O hO
  · simp only [StrMap.insert, mapEntries_insertEntry, hOp]

theorem OptsSim.assign_source {h₀ h : Heap} {S : StrMap Cell} {Op : StrMap Value}
    (hs : OptsSim h₀ h S Op) (k : String) (c : Cell) :
    OptsSim h₀ (h.assign h₀.length k c) (S.insert k c) Op := by
  obtain ⟨hp, hS, O, hO, hOp⟩ := hs
  refine ⟨hp.trans (preserves_assign _ _ _ _ _ (Nat.le_refl _)), ?_, O, ?_, hOp⟩
  · exact get?_assign_same h _ k c S hS
  · rw [get?_assign_ne _ _ _ _ _ (by omega)]
    exact hO

theorem OptsSim.assign_other {h₀ h : Heap} {S : StrMap Cell} {Op : StrMap Value}
    (hs : OptsSim h₀ h S Op) (g : Nat) (hg : h₀.length + 2 ≤ g) (k : String) (c : Cell) :
    OptsSim h₀ (h.assign g k c) S Op := by
  obtain ⟨hp, hS, O, hO, hOp⟩ := hs
  refine ⟨hp.trans (preserves_assign _ _ _ _ _ (by omega)), ?_, O, ?_, hOp⟩
  · rw [get?_assign_ne _ _ _ _ _ (by omega)]
    exact hS
  · rw [get?_assign_ne _ _ _ _ _ (by omega)]
    exact hO

theorem OptsSim.length {h₀ h : Heap} {S : StrMap Cell} {Op : StrMap Value}
    (hs : OptsSim h₀ h S Op) : h₀.length + 2 ≤ h.length := by
  obtain ⟨_, _, O, hO, _⟩ := hs
  have := lt_length_of_get? h _ _ hO
  omega

theorem OptsSim.make {h₀ h : Heap} {S : StrMap Cell} {Op : StrMap Value}
    (hs : OptsSim h₀ h S Op) : OptsSim h₀ (h.make).1 S Op := by
  have hlen := hs.length
  obtain ⟨hp, hS, O, hO, hOp⟩ := hs
  refine ⟨hp.trans (preserves_make _ _ hp.1), ?_, O, ?_, hOp⟩
  · rw [get?_make_old _ _ (by omega)]
    exact hS
  · rw [get?_make_old _ _ (by omega)]
    exact hO

/-- The state after the first three statements of `Source`. -/
theorem OptsSim.start (h₀ : Heap) :
    OptsSim h₀ (((h₀.make).1.make).1.assign (h₀.make).2 "min" (Cell.ref ((h₀.make).1.make).2))
      (StrMap.empty.insert "min" (Cell.ref (h₀.length + 1))) StrMap.empty := by
  have p1 : Heap.Preserves h₀.length h₀ (h₀.make).1 := preserves_make _ h₀ (Nat.le_refl _)
  have p2 : Heap.Preserves h₀.length h₀ ((h₀.make).1.make).1 :=
    p1.trans (preserves_make _ _ p1.1)
  have hlen1 : (h₀.make).1.length = h₀.length + 1 := by simp [Heap.make]
  have e1 : (h₀.make).2 = h₀.length := rfl
  have e2 : ((h₀.make).1.make).2 = h₀.length + 1 := hlen1
  have g1 : ((h₀.make).1.make).1.get? h₀.length = some (Obj.values StrMap.empty) := by
    rw [get?_make_old _ _ (by omega)]
    exact get?_make_new h₀
  have g2 : ((h₀.make).1.make).1.get? (h₀.length + 1) = some (Obj.values StrMap.empty) := by
    rw [← hlen1]
    exact get?_make_new _
  rw [e1, e2]
  refine ⟨p2.trans (preserves_assign _ _ _ _ _ (Nat.le_refl _)), ?_, StrMap.empty, ?_, rfl⟩
  · exact get?_assign_same _ _ _ _ _ g1
  · rw [get?_assign_ne _ _ _ _ _ (by omega)]
    exact g2

theorem scriptSourceMem_sim {h₀ h : Heap} {S : StrMap Cell} {Op : StrMap Value}
    (hs : OptsSim h₀ h S Op) (script : Option Script) :
    (∀ e, scriptSource script Op = Except.error e →
      scriptSourceMem script (h₀.length + 1) h = (h, some e)) ∧
    (∀ Op', scriptSource script Op = Except.ok Op' →
      (scriptSourceMem script (h₀.length + 1) h).2 = none ∧
      OptsSim h₀ (scriptSourceMem script (h₀.length + 1) h).1 S Op') := by
  cases script with
  | none =>
    constructor
    · intro e he
      simp [scriptSource] at he
    · intro Op' hok
      simp only [scriptSource] at hok
      injection hok with hok
      subst hok
      exact ⟨rfl, hs⟩
  | some sc =>
    rcases hsrc : sc.Source with ⟨src, err⟩
    cases err with
    | some e' =>
      constructor
      · intro e he
        simp only [scriptSource, hsrc] at he
        injection he with he
        subst he
        simp only [scriptSourceMem, hsrc]
      · intro Op' hok
        simp [scriptSource, hsrc] at hok
    | none =>
      constructor
      · intro e he
        simp [scriptSource, hsrc] at he
      · intro Op' hok
        simp only [scriptSource, hsrc] at hok
        injection hok with hok
        subst hok
        refine ⟨?_, ?_⟩
        · simp only [scriptSourceMem, hsrc]
        · simp only [scriptSourceMem, hsrc]
          exact hs.assign_opts "script" (Cell.lit src)

theorem subAggregationsSourceMem_sim {h₀ : Heap} {S : StrMap Cell} {Op : StrMap Value}
    (order : List (String × Aggregation)) (g : Nat) (hg : h₀.length + 2 ≤ g)
    (h : Heap) (hs : OptsSim h₀ h S Op) (G : StrMap Cell) (Gp : StrMap Value)
    (hG : h.get? g = some (Obj.values G))
    (hGp : mapEntries Cell.toValue G.entries = Gp.entries) :
    (∀ e, subAggregationsSource order Gp = Except.error e →
      (subAggregationsSourceMem order g h).2 = some e) ∧
    (∀ Gp', subAggregationsSource order Gp = Except.ok Gp' →
      (subAggregationsSourceMem order g h).2 = none ∧
      OptsSim h₀ (subAggregationsSourceMem order g h).1 S Op ∧
      ∃ G', (subAggregationsSourceMem order g h).1.get? g = some (Obj.values G') ∧
        mapEntries Cell.toValue G'.entries = Gp'.entries) := by
  induction order generalizing h G Gp with
  | nil =>
    constructor
    · intro e he
      simp [subAggregationsSource] at he
    · intro Gp' hok
      simp only [subAggregationsSource] at hok
      injection hok with hok
      subst hok
      exact ⟨rfl, hs, G, hG, hGp⟩
  | cons hd tl ih =>
    obtain ⟨name, agg⟩ := hd
    rcases hsrc : agg.Source with ⟨src, err⟩
    cases err with
    | some e' =>
      constructor
      · intro e he
        simp only [subAggregationsSource, hsrc] at he
        injection he with he
        subst he
        simp only [subAggregationsSourceMem, hsrc]
      · intro Gp' hok
        simp [subAggregationsSource, hsrc] at hok
    | none =>
      have hstep := ih (h.assign g name (Cell.lit src))
        (hs.assign_other g hg name (Cell.lit src)) (G.insert name (Cell.lit src))
        (Gp.insert name src) (get?_assign_same h g name _ G hG)
        (by simp only [StrMap.insert, mapEntries_insertEntry, hGp, Cell.toValue])
      simp only [subAggregationsSource, subAggregationsSourceMem, hsrc]
      exact hstep

theorem builderAt_of_preserves {h₀ h : Heap} {a : Nat}
    (hp : Heap.Preserves h₀.length h₀ h) (ha : a < h₀.length) :
    h.builderAt a = h₀.builderAt a := by
  simp only [Heap.builderAt, hp.2 a ha]

/-- What the statements of `Source` read from a well-typed heap, in terms of
the builder the receiver stands for. -/
theorem reads_of_wellTyped {h₀ h : Heap} {a : Nat} (hwt : h₀.WellTyped a)
    (hp : Heap.Preserves h₀.length h₀ h) :
    (h.builderAt a).field = (h₀.toMinAggregation a).field ∧
    (h.builderAt a).script = (h₀.toMinAggregation a).script ∧
    (h.builderAt a).format = (h₀.toMinAggregation a).format ∧
    (h.builderAt a).missing = Cell.lit (h₀.toMinAggregation a).missing ∧
    h.lenAt (h.builderAt a).subAggregations =
      GoMap.len (h₀.toMinAggregation a).subAggregations ∧
    h.aggregationsAt (h.builderAt a).subAggregations =
      GoMap.entries (h₀.toMinAggregation a).subAggregations ∧
    h.lenAt (h.builderAt a).meta = GoMap.len (h₀.toMinAggregation a).meta ∧
    (h.lenAt (h.builderAt a).meta > 0 →
      ∃ t M, (h.builderAt a).meta = some t ∧ t < h₀.length ∧
        h.get? t = some (Obj.values M) ∧
        mapEntries Cell.toValue M.entries = GoMap.entries (h₀.toMinAggregation a).meta) := by
  obtain ⟨⟨b, hb⟩, ⟨v, hv⟩, hsub, hmeta⟩ := hwt
  have ha : a < h₀.length := lt_length_of_get? h₀ a _ hb
  have hba := builderAt_of_preserves hp ha
  rw [hba]
  refine ⟨rfl, rfl, rfl, ?_, ?_, ?_, ?_, ?_⟩
  · rw [hv]
    simp only [Heap.toMinAggregation, hv, Cell.toValue]
  · cases hs : (h₀.builderAt a).subAggregations with
    | none => simp [Heap.toMinAggregation, hs, Heap.lenAt, GoMap.len, GoMap.entries]
    | some s =>
      obtain ⟨m, hm⟩ := hsub s hs
      have hlt := lt_length_of_get? h₀ s _ hm
      have hm' : h.get? s = some (Obj.aggregations m) := (hp.2 s hlt).trans hm
      simp only [Heap.toMinAggregation, hs, Heap.lenAt, GoMap.len, GoMap.entries, hm, hm']
  · cases hs : (h₀.builderAt a).subAggregations with
    | none => simp [Heap.toMinAggregation, hs, Heap.aggregationsAt, GoMap.entries]
    | some s =>
      obtain ⟨m, hm⟩ := hsub s hs
      have hlt := lt_length_of_get? h₀ s _ hm
      have hm' : h.get? s = some (Obj.aggregations m) := (hp.2 s hlt).trans hm
      simp only [Heap.toMinAggregation, hs, Heap.aggregationsAt, GoMap.entries, hm, hm']
  · cases ht : (h₀.builderAt a).meta with
    | none => simp [Heap.toMinAggregation, ht, Heap.lenAt, GoMap.len, GoMap.entries]
    | some t =>
      obtain ⟨M, hM⟩ := hmeta t ht
      have hlt := lt_length_of_get? h₀ t _ hM
      have hM' : h.get? t = some (Obj.values M) := (hp.2 t hlt).trans hM
      simp only [Heap.toMinAggregation, ht, Heap.lenAt, GoMap.len, GoMap.entries, hM, hM',
        StrMap.mapValues, mapEntries, List.length_map]
  · intro hlen
    cases ht : (h₀.builderAt a).meta with
    | none => simp [ht, Heap.lenAt] at hlen
    | some t =>
      obtain ⟨M, hM⟩ := hmeta t ht
      have hlt := lt_length_of_get? h₀ t _ hM
      refine ⟨t, M, rfl, hlt, (hp.2 t hlt).trans hM, ?_⟩
      simp only [Heap.toMinAggregation, ht, GoMap.entries, hM, StrMap.mapValues]

theorem read_two (h : Heap) (n : Nat) (S : StrMap Cell)
    (hS : h.get? n = some (Obj.values S)) :
    h.read 2 (Cell.ref n) = Value.obj (mapEntries (h.read 1) S.entries) := by
  simp only [Heap.read, hS]

theorem read_one (h : Heap) (addr : Nat) (M : StrMap Cell)
    (hM : h.get? addr = some (Obj.values M)) :
    h.read 1 (Cell.ref addr) = Value.obj (mapEntries Cell.toValue M.entries) := by
  simp only [Heap.read, hM, read_zero_fun]

theorem OptsSim.read_opts {h₀ h : Heap} {S : StrMap Cell} {Op : StrMap Value}
    (hs : OptsSim h₀ h S Op) :
    h.read 1 (Cell.ref (h₀.length + 1)) = Value.obj Op.entries := by
  obtain ⟨_, _, O, hO, hOp⟩ := hs
  rw [read_one h _ O hO, hOp]

theorem read_one_stable (h h' : Heap) (addr : Nat) (M : StrMap Cell)
    (hM : h.get? addr = some (Obj.values M)) (hst : h'.get? addr = h.get? addr) :
    h'.read 1 (Cell.ref addr) = Value.obj (mapEntries Cell.toValue M.entries) :=
  read_one h' addr M (hst.trans hM)

/-- Lines 104-108 of `Source` on the heap, read back: the last statements add
the metadata to the document that `source` stands for. -/
theorem meta_tail {h₀ h : Heap} {a : Nat} {S : StrMap Cell} {Op : StrMap Value}
    (hwt : h₀.WellTyped a) (hs : OptsSim h₀ h S Op) (Sp : StrMap Value)
    (hsim : ∀ h' : Heap, (∀ i, i ≠ h₀.length → h'.get? i = h.get? i) →
      mapEntries (h'.read 1) S.entries = Sp.entries) :
    (if h.lenAt (h.builderAt a).meta > 0 then
        match (h.builderAt a).meta with
        | some m => h.assign h₀.length "meta" (Cell.ref m)
        | none => h
      else h).read 2 (Cell.ref h₀.length) =
      Value.obj (if GoMap.len (h₀.toMinAggregation a).meta > 0 then
          Sp.insert "meta" (Value.obj (GoMap.entries (h₀.toMinAggregation a).meta))
        else Sp).entries := by
  have r := reads_of_wellTyped hwt hs.1
  rw [← r.2.2.2.2.2.2.1]
  by_cases hlen : h.lenAt (h.builderAt a).meta > 0
  · obtain ⟨t, M, ht, hlt, hM, hMp⟩ := r.2.2.2.2.2.2.2 hlen
    rw [ht] at hlen ⊢
    simp only [hlen, if_true]
    have hst : ∀ i, i ≠ h₀.length →
        (h.assign h₀.length "meta" (Cell.ref t)).get? i = h.get? i :=
      fun i hi => get?_assign_ne h _ i _ _ hi
    have hS' := (hs.assign_source "meta" (Cell.ref t)).2.1
    rw [read_two _ _ _ hS']
    simp only [StrMap.insert, mapEntries_insertEntry]
    rw [hsim _ hst, read_one_stable h _ t M hM (hst t (by omega)), hMp]
  · simp only [hlen, if_false]
    rw [read_two _ _ _ hs.2.1]
    rw [hsim h (fun _ _ => rfl)]

/-- On a well-typed heap `Source` on the heap and `Source` on the builder the
receiver stands for return the same error, and the document the returned
reference leads to is the returned document. -/
theorem SourceMem_refines (h₀ : Heap) (a : Nat) (sched : Schedule)
    (hwt : h₀.WellTyped a) :
    ((SourceMem h₀ a sched).1.read 2 (SourceMem h₀ a sched).2.1,
      (SourceMem h₀ a sched).2.2) = (h₀.toMinAggregation a).Source sched := by
  have s3 := OptsSim.start h₀
  have e1 : (h₀.make).2 = h₀.length := rfl
  have e2 : ((h₀.make).1.make).2 = h₀.length + 1 := by simp [Heap.make]
  unfold SourceMem MinAggregation.Source
  simp only []
  generalize (((h₀.make).1.make).1.assign (h₀.make).2 "min"
    (Cell.ref ((h₀.make).1.make).2)) = h3 at s3 ⊢
  rw [e2, e1]
  -- field
  have r3 := reads_of_wellTyped hwt s3.1
  rw [r3.1]
  have s4 : OptsSim h₀
      (if (h₀.toMinAggregation a).field ≠ "" then
        h3.assign (h₀.length + 1) "field"
          (Cell.lit (Value.str (h₀.toMinAggregation a).field))
      else h3)
      (StrMap.empty.insert "min" (Cell.ref (h₀.length + 1)))
      (if (h₀.toMinAggregation a).field ≠ "" then
        StrMap.empty.insert "field" (Value.str (h₀.toMinAggregation a).field)
      else StrMap.empty) := by
    split
    · exact s3.assign_opts "field" _
    · exact s3
  generalize (if (h₀.toMinAggregation a).field ≠ "" then
        h3.assign (h₀.length + 1) "field"
          (Cell.lit (Value.str (h₀.toMinAggregation a).field))
      else h3) = h4 at s4 ⊢
  generalize (if (h₀.toMinAggregation a).field ≠ "" then
        StrMap.empty.insert "field" (Value.str (h₀.toMinAggregation a).field)
      else StrMap.empty) = Op4 at s4 ⊢
  -- script
  have r4 := reads_of_wellTyped hwt s4.1
  rw [r4.2.1]
  obtain ⟨hE, hO⟩ := scriptSourceMem_sim s4 (h₀.toMinAggregation a).script
  cases hsc : scriptSource (h₀.toMinAggregation a).script Op4 with
  | error e =>
    rw [hE e hsc]
    rfl
  | ok Op5 =>
    obtain ⟨he5, s5⟩ := hO Op5 hsc
    rcases hmem : scriptSourceMem (h₀.toMinAggregation a).script (h₀.length + 1) h4
      with ⟨h5, e5⟩
    rw [hmem] at he5 s5
    simp only at he5 s5
    subst he5
    simp only []
    -- format
    have r5 := reads_of_wellTyped hwt s5.1
    rw [r5.2.2.1]
    have s6 : OptsSim h₀
        (if (h₀.toMinAggregation a).format ≠ "" then
          h5.assign (h₀.length + 1) "format"
            (Cell.lit (Value.str (h₀.toMinAggregation a).format))
        else h5)
        (StrMap.empty.insert "min" (Cell.ref (h₀.length + 1)))
        (if (h₀.toMinAggregation a).format ≠ "" then
          Op5.insert "format" (Value.str (h₀.toMinAggregation a).format)
        else Op5) := by
      split
      · exact s5.assign_opts "format" _
      · exact s5
    generalize (if (h₀.toMinAggregation a).format ≠ "" then
          h5.assign (h₀.length + 1) "format"
            (Cell.lit (Value.str (h₀.toMinAggregation a).format))
        else h5) = h6 at s6 ⊢
    generalize (if (h₀.toMinAggregation a).format ≠ "" then
          Op5.insert "format" (Value.str (h₀.toMinAggregation a).format)
        else Op5) = Op6 at s6 ⊢
    -- missing
    have r6 := reads_of_wellTyped hwt s6.1
    rw [r6.2.2.2.1]
    simp only [Cell.isNil]
    have s7 : OptsSim h₀
        (if (!(h₀.toMinAggregation a).missing.isNil) = true then
          h6.assign (h₀.length + 1) "missing" (Cell.lit (h₀.toMinAggregation a).missing)
        else h6)
        (StrMap.empty.insert "min" (Cell.ref (h₀.length + 1)))
        (if (!(h₀.toMinAggregation a).missing.isNil) = true then
          Op6.insert "missing" (h₀.toMinAggregation a).missing
        else Op6) := by
      split
      · exact s6.assign_opts "missing" _
      · exact s6
    generalize (if (!(h₀.toMinAggregation a).missing.isNil) = true then
          h6.assign (h₀.length + 1) "missing" (Cell.lit (h₀.toMinAggregation a).missing)
        else h6) = h7 at s7 ⊢
    generalize (if (!(h₀.toMinAggregation a).missing.isNil) = true then
          Op6.insert "missing" (h₀.toMinAggregation a).missing
        else Op6) = Op7 at s7 ⊢
    -- sub-aggregations
    have r7 := reads_of_wellTyped hwt s7.1
    rw [r7.2.2.2.2.1, r7.2.2.2.2.2.1]
    by_cases hlen : GoMap.len (h₀.toMinAggregation a).subAggregations > 0
    · simp only [hlen, if_true]
      have hl7 := s7.length
      have s8 := s7.make.assign_source "aggregations" (Cell.ref (h7.make).2)
      have hG8 : ((h7.make).1.assign h₀.length "aggregations"
          (Cell.ref (h7.make).2)).get? (h7.make).2 = some (Obj.values StrMap.empty) := by
        rw [get?_assign_ne _ _ _ _ _ (show (h7.make).2 ≠ h₀.length from by
          show h7.length ≠ h₀.length
          omega)]
        exact get?_make_new h7
      obtain ⟨hLE, hLO⟩ := subAggregationsSourceMem_sim
        (rangeOrder sched (GoMap.entries (h₀.toMinAggregation a).subAggregations))
        (h7.make).2 hl7 _ s8 StrMap.empty StrMap.empty hG8 rfl
      cases hl : subAggregationsSource
          (rangeOrder sched (GoMap.entries (h₀.toMinAggregation a).subAggregations))
          StrMap.empty with
      | error e =>
        have he9 := hLE e hl
        rcases hmem : subAggregationsSourceMem
            (rangeOrder sched (GoMap.entries (h₀.toMinAggregation a).subAggregations))
            (h7.make).2
            ((h7.make).1.assign h₀.length "aggregations" (Cell.ref (h7.make).2))
          with ⟨h9, e9⟩
        rw [hmem] at he9
        simp only at he9
        subst he9
        rfl
      | ok Gp =>
        obtain ⟨he9, s9, G', hG', hGp'⟩ := hLO Gp hl
        rcases hmem : subAggregationsSourceMem
            (rangeOrder sched (GoMap.entries (h₀.toMinAggregation a).subAggregations))
            (h7.make).2
            ((h7.make).1.assign h₀.length "aggregations" (Cell.ref (h7.make).2))
          with ⟨h9, e9⟩
        rw [hmem] at he9 s9 hG'
        simp only at he9 s9 hG'
        subst he9
        simp only []
        have htail := meta_tail hwt s9
          ((StrMap.empty.insert "min" (Value.obj Op7.entries)).insert "aggregations"
            (Value.obj Gp.entries)) (by
            intro h' hst
            simp only [StrMap.insert, StrMap.empty, mapEntries_insertEntry]
            rw [read_one_stable h9 h' _ G' hG' (hst _ (by
                show h7.length ≠ h₀.length
                omega)), hGp']
            obtain ⟨_, _, O, hO, hOp⟩ := s9
            rw [show mapEntries (h'.read 1) [] = ([] : List (String × Value)) from rfl]
            rw [read_one_stable h9 h' _ O hO (hst _ (by omega)), hOp])
        exact Prod.ext htail rfl
    · simp only [hlen, if_false]
      have htail := meta_tail hwt s7 (StrMap.empty.insert "min" (Value.obj Op7.entries)) (by
        intro h' hst
        simp only [StrMap.insert, StrMap.empty, mapEntries_insertEntry]
        obtain ⟨_, _, O, hO, hOp⟩ := s7
        rw [show mapEntries (h'.read 1) [] = ([] : List (String × Value)) from rfl]
        rw [read_one_stable h7 h' _ O hO (hst _ (by omega)), hOp])
      exact Prod.ext htail rfl

/-! ## The claim on what `Source` writes -/

/-- C12: `Source` never mutates the builder.  On the heap, whatever `Source`
returns (a value or an error), every object that existed before the call is
unchanged after it; in particular the struct of the builder (field, script,
format, missing and the references to its two maps), the sub-aggregation map
and the metadata map are what they were before the call.  On a well-typed
heap the pair returned is the one `MinAggregation.Source` returns on the
builder the receiver stands for. -/
theorem C12_source_does_not_mutate (h₀ : Heap) (a : Nat) (sched : Schedule) :
    (∀ i, i < h₀.length → (SourceMem h₀ a sched).1.get? i = h₀.get? i) ∧
    (a < h₀.length → (SourceMem h₀ a sched).1.builderAt a = h₀.builderAt a) ∧
    (∀ m, a < h₀.length → (h₀.builderAt a).subAggregations = some m → m < h₀.length →
      (SourceMem h₀ a sched).1.aggregationsAt
          ((SourceMem h₀ a sched).1.builderAt a).subAggregations =
        h₀.aggregationsAt (h₀.builderAt a).subAggregations) ∧
    (∀ m, a < h₀.length → (h₀.builderAt a).meta = some m → m < h₀.length →
      ((SourceMem h₀ a sched).1.builderAt a).meta = some m ∧
      (SourceMem h₀ a sched).1.get? m = h₀.get? m) ∧
    (h₀.WellTyped a →
      ((SourceMem h₀ a sched).1.read 2 (SourceMem h₀ a sched).2.1,
        (SourceMem h₀ a sched).2.2) = (h₀.toMinAggregation a).Source sched) := by
  have hp := (preserves_SourceMem h₀ a sched).2
  have hb : a < h₀.length → (SourceMem h₀ a sched).1.builderAt a = h₀.builderAt a := by
    intro ha
    simp only [Heap.builderAt, hp a ha]
  refine ⟨hp, hb, ?_, ?_, SourceMem_refines h₀ a sched⟩
  · intro m ha hm hlt
    rw [hb ha, hm]
    simp only [Heap.aggregationsAt, hp m hlt]
  · intro m ha hm hlt
    rw [hb ha]
    exact ⟨hm, hp m hlt⟩

theorem C12_source_does_not_mutate_witness :
    2 < exampleHeap.length ∧
    (SourceMem exampleHeap 2 []).1.builderAt 2 = exampleHeap.builderAt 2 ∧
    SourceMem exampleHeap 2 [] =
      (exampleHeap ++
        [Obj.values (((StrMap.empty.insert "min" (Cell.ref 4)).insert "aggregations"
            (Cell.ref 5)).insert "meta" (Cell.ref 0)),
         Obj.values ((StrMap.empty.insert "field" (Cell.lit (Value.str "price"))).insert
            "missing" (Cell.lit (Value.num 0))),
         Obj.values (StrMap.empty.insert "nested"
            (Cell.lit (Value.obj [("x", Value.num 1)])))],
       Cell.ref 3, none) :=
  ⟨by decide, (C12_source_does_not_mutate exampleHeap 2 []).2.1 (by decide), rfl⟩

/-! ## Renders that differ from call to call -/

theorem entries_atCall (b : CallBuilder) (inner : String → Schedule) :
    GoMap.entries (b.atCall inner).subAggregations =
      mapEntriesWithKey (fun n s => (⟨s.Source (inner n)⟩ : Aggregation))
        (GoMap.entries b.subAggregations) := by
  unfold CallBuilder.atCall
  cases b.subAggregations with
  | none => rfl
  | some m => rfl

/-- When every sub-aggregation has the same outcome at two calls, the two calls
find the same builder. -/
theorem atCall_congr (b : CallBuilder) (i₁ i₂ : String → Schedule)
    (h : ∀ p ∈ GoMap.entries b.subAggregations, p.2.Source (i₁ p.1) = p.2.Source (i₂ p.1)) :
    b.atCall i₁ = b.atCall i₂ := by
  unfold CallBuilder.atCall
  cases hm : b.subAggregations with
  | none => rfl
  | some m =>
    have hent : ∀ p ∈ m.entries, p.2.Source (i₁ p.1) = p.2.Source (i₂ p.1) := by
      intro p hp
      apply h p
      rw [hm]
      exact hp
    have hmap : m.mapWithKey (fun n s => (⟨s.Source (i₁ n)⟩ : Aggregation)) =
        m.mapWithKey (fun n s => (⟨s.Source (i₂ n)⟩ : Aggregation)) := by
      apply StrMap.eq_of_entries
      simp only [StrMap.mapWithKey, mapEntriesWithKey]
      apply List.map_congr_left
      intro p hp
      rw [hent p hp]
    simp only [hmap]

/-- A failing `Source` returns the nil value. -/
theorem Source_error_value (a : MinAggregation) (sched : Schedule)
    (h : (a.Source sched).2 ≠ none) : (a.Source sched).1 = Value.null := by
  rcases (Source_error_iff a sched).1 h with hs | hs
  · obtain ⟨s, hs, hne⟩ := hs
    obtain ⟨e, he⟩ := Option.ne_none_iff_exists'.1 hne
    rw [Source_of_script_error a sched s e hs he]
  · by_cases hscript : a.scriptFails
    · obtain ⟨s, hs, hne⟩ := hscript
      obtain ⟨e, he⟩ := Option.ne_none_iff_exists'.1 hne
      rw [Source_of_script_error a sched s e hs he]
    · obtain ⟨p, _, e, _, he⟩ := Source_of_sub_error a sched hscript hs
      rw [he]

/-- When the script renders, the error of any failing sub-aggregation is the one
`Source` returns for some order of the visit: the order that visits it first. -/
theorem Source_first_error (a : MinAggregation) (hscript : ¬ a.scriptFails)
    (p : String × Aggregation) (hp : p ∈ GoMap.entries a.subAggregations)
    (e : GoError) (he : p.2.Source.2 = some e) :
    ∃ sched, a.Source sched = (Value.null, some e) := by
  obtain ⟨l₁, l₂, hl⟩ := List.append_of_mem hp
  have hperm : (p :: (l₁ ++ l₂)).Perm (GoMap.entries a.subAggregations) := by
    rw [hl]
    exact List.perm_middle.symm
  obtain ⟨sched, hsched⟩ := rangeOrder_complete _ _ hperm
  refine ⟨sched, ?_⟩
  have hs := scriptSource_ok a.script
    (if a.field ≠ "" then StrMap.empty.insert "field" (Value.str a.field) else StrMap.empty)
    ((not_scriptFails_iff a).1 hscript)
  have hlen : GoMap.len a.subAggregations > 0 := by
    unfold GoMap.len
    exact List.length_pos_of_mem hp
  have hloop : subAggregationsSource (rangeOrder sched (GoMap.entries a.subAggregations))
      StrMap.empty = Except.error e := by
    rw [hsched]
    obtain ⟨name, agg⟩ := p
    rcases hsrc : agg.Source with ⟨src, err⟩
    rw [hsrc] at he
    simp only at he
    subst he
    simp only [subAggregationsSource, hsrc]
  unfold MinAggregation.Source
  simp only [hs, hlen, if_true, hloop]


/-- A sub-aggregation that is itself a builder need not render the same at two
calls: with `twoFailing` registered as `"inner"`, the call in which the nested
range visits `"a"` first returns `first` and the call in which it visits `"b"`
first returns `second`. -/
theorem nestedTwoFailing_not_repeatable :
    nestedTwoFailing.Source [] (fun _ => [0]) = (Value.null, some ⟨"first"⟩) ∧
    nestedTwoFailing.Source [] (fun _ => [1]) = (Value.null, some ⟨"second"⟩) :=
  ⟨rfl, rfl⟩

/-- C7 (amended): two successive calls of `Source` on the unchanged builder
return structurally equal results provided every sub-aggregation returns the
same result at both calls (a nested builder whose children fail with different
errors does not) and unless the script renders and two sub-aggregations fail
with different errors.  Under the same proviso one call succeeds exactly when
the other does, and successful results are equal.  A failing call returns the
nil value; when the script renders, the error it returns is the error a
failing sub-aggregation returned at that call, and the error of every failing
sub-aggregation is returned for some order of the visit. -/
theorem C7_source_repeatable (b : CallBuilder) (s₁ s₂ : Schedule)
    (i₁ i₂ : String → Schedule) :
    ((∀ p ∈ GoMap.entries b.subAggregations, p.2.Source (i₁ p.1) = p.2.Source (i₂ p.1)) →
      ((¬ b.scriptFails →
          ∀ p ∈ GoMap.entries b.subAggregations, ∀ q ∈ GoMap.entries b.subAggregations,
            ∀ e₁ e₂, (p.2.Source (i₁ p.1)).2 = some e₁ →
              (q.2.Source (i₁ q.1)).2 = some e₂ → e₁ = e₂) →
        b.Source s₁ i₁ = b.Source s₂ i₂) ∧
      ((b.Source s₁ i₁).2 = none ↔ (b.Source s₂ i₂).2 = none) ∧
      ((b.Source s₁ i₁).2 = none → b.Source s₁ i₁ = b.Source s₂ i₂)) ∧
    ((b.Source s₁ i₁).2 ≠ none → (b.Source s₁ i₁).1 = Value.null) ∧
    (¬ b.scriptFails → ∀ e, (b.Source s₁ i₁).2 = some e →
      ∃ p ∈ GoMap.entries b.subAggregations, (p.2.Source (i₁ p.1)).2 = some e) ∧
    (¬ b.scriptFails → ∀ p ∈ GoMap.entries b.subAggregations, ∀ e,
      (p.2.Source (i₁ p.1)).2 = some e →
      ∃ s, b.Source s i₁ = (Value.null, some e)) := by
  have hmem : ∀ (i : String → Schedule) (x : String × Aggregation),
      x ∈ GoMap.entries (b.atCall i).subAggregations ↔
        ∃ p ∈ GoMap.entries b.subAggregations, x = (p.1, ⟨p.2.Source (i p.1)⟩) := by
    intro i x
    rw [entries_atCall]
    simp only [mapEntriesWithKey, List.mem_map]
    constructor
    · rintro ⟨p, hp, hx⟩
      exact ⟨p, hp, hx.symm⟩
    · rintro ⟨p, hp, hx⟩
      exact ⟨p, hp, hx.symm⟩
  refine ⟨?_, ?_, ?_, ?_⟩
  · intro hrep
    have hcall : b.atCall i₁ = b.atCall i₂ := atCall_congr b i₁ i₂ hrep
    have hrepeat := Source_repeatable (b.atCall i₁) s₁ s₂
    unfold CallBuilder.Source
    rw [← hcall]
    refine ⟨?_, hrepeat.2.1, hrepeat.2.2⟩
    intro hsame
    apply hrepeat.1
    intro hscript x hx y hy e₁ e₂ hxe hye
    obtain ⟨p, hp, rfl⟩ := (hmem i₁ x).1 hx
    obtain ⟨q, hq, rfl⟩ := (hmem i₁ y).1 hy
    exact hsame hscript p hp q hq e₁ e₂ hxe hye
  · exact Source_error_value (b.atCall i₁) s₁
  · intro hscript e he
    have hfail : ((b.atCall i₁).Source s₁).2 ≠ none := by
      intro hnone
      have he' : ((b.atCall i₁).Source s₁).2 = some e := he
      rw [hnone] at he'
      cases he'
    have hsub : (b.atCall i₁).subAggregationFails := by
      rcases (Source_error_iff (b.atCall i₁) s₁).1 hfail with h | h
      · exact absurd h hscript
      · exact h
    obtain ⟨x, hx, e', hxe, hsrc⟩ := Source_of_sub_error (b.atCall i₁) s₁ hscript hsub
    obtain ⟨p, hp, rfl⟩ := (hmem i₁ x).1 hx
    refine ⟨p, hp, ?_⟩
    have he' : ((b.atCall i₁).Source s₁).2 = some e := he
    rw [hsrc] at he'
    simp only at he'
    rw [← he']
    exact hxe
  · intro hscript p hp e he
    exact Source_first_error (b.atCall i₁) hscript (p.1, ⟨p.2.Source (i₁ p.1)⟩)
      ((hmem i₁ _).2 ⟨p, hp, rfl⟩) e he

theorem C7_source_repeatable_witness :
    nestedOneFailing.Source [] (fun _ => [0]) = nestedOneFailing.Source [] (fun _ => [1]) :=
  ((C7_source_repeatable nestedOneFailing [] [] (fun _ => [0]) (fun _ => [1])).1 (by
    intro p hp
    have hp' : p ∈ [("inner", oneFailing.toCallAggregation)] := hp
    rw [List.mem_singleton] at hp'
    subst hp'
    rfl)).1 (by
    intro _ p hp q hq e₁ e₂ h1 h2
    have hp' : p ∈ [("inner", oneFailing.toCallAggregation)] := hp
    have hq' : q ∈ [("inner", oneFailing.toCallAggregation)] := hq
    rw [List.mem_singleton] at hp' hq'
    subst hp'
    subst hq'
    rw [h1] at h2
    exact Option.some.inj h2)

end Elastic
